import Mathlib

/-
Verification development for the `console_engine` terminal compositor.

The definitions below are a shallow embedding of the Rust sources:
  * `src/pixel.rs`   (crossterm-era `Pixel`; see the comment on `Pixel`)
  * `src/screen.rs`  (the `Screen` buffer and its drawing primitives)
  * `src/utils.rs`   (the three set operations used by input classification)
  * `src/lib.rs`     (the engine's per-frame key-state update and diff draw)

Machine integers are modelled as `Nat` (for `u32`/`usize` values) and `Int`
(for `i32` coordinates); arithmetic is idealized (no wrap-around), which is
faithful on the value ranges the algorithms are designed for.  Rust `Vec`s
become `List`s; in-place mutation becomes explicit state passing.
-/

set_option maxHeartbeats 1000000

namespace CE

/-- Terminal color code.  The concrete color enum lives in the out-of-scope
terminal collaborator (crossterm); the spec treats colors as opaque values
compared by equality, with a distinguished `Reset` default.  We model them as
a wrapped numeric code. -/
structure Color where
  code : Nat
deriving DecidableEq, Repr

def Color.Reset : Color := ⟨0⟩

def Color.White : Color := ⟨1⟩

def Color.Black : Color := ⟨2⟩

/-- Modelled from the spec: the `Pixel` value type of the crossterm-era
`src/pixel.rs` (only a termion-era snapshot of that file is among the
provided sources).  Per spec section 3: character + foreground color +
background color, an immutable value compared by structural equality. -/
structure Pixel where
  fg : Color
  bg : Color
  chr : Char
deriving DecidableEq, Repr

/-- The accessor returning `(fg, bg)` as a pair for diff comparisons
(spec section 4.1; used by `ConsoleEngine::draw`). -/
def Pixel.get_colors (p : Pixel) : Color × Color := (p.fg, p.bg)

/-- The NUL sentinel character `'\u{0}'` marking semantically-empty cells. -/
def nulChar : Char := Char.ofNat 0

/-- `pixel::pxl`: bare constructor, default colors. -/
def pxl (c : Char) : Pixel := ⟨Color.Reset, Color.Reset, c⟩

/-- `pixel::pxl_fbg`: full constructor. -/
def pxl_fbg (c : Char) (fg bg : Color) : Pixel := ⟨fg, bg, c⟩

/-- Fallback pixel used by total read functions (`List.getD`); never reached
on in-bounds reads of well-formed screens. -/
def defaultPixel : Pixel := pxl ' '

/-- `Screen` (src/screen.rs): width, height, row-major pixel buffer and the
cached `empty` flag. -/
structure Screen where
  width : Nat
  height : Nat
  screen : List Pixel
  empty : Bool
deriving DecidableEq, Repr

/-- The buffer-length invariant `cells.len() == width * height`. -/
def Screen.wf (s : Screen) : Prop := s.screen.length = s.width * s.height

/-- `Screen::coord_to_index`: `((y * width) + x) as usize`.  The Rust cast of
a negative value would produce a huge index (and an out-of-range panic); all
call sites guard coordinates first, so the `toNat` clamp is never reached
with a negative argument. -/
def coordToIndex (w : Nat) (x y : Int) : Nat := ((y * (w : Int)) + x).toNat

/-- Total cell read at signed coordinates (the in-bounds content of the
buffer; used to state properties). -/
def Screen.cell (s : Screen) (x y : Int) : Pixel :=
  s.screen.getD (coordToIndex s.width x y) defaultPixel

/-- Total cell read at `Nat` coordinates. -/
def Screen.cellN (s : Screen) (x y : Nat) : Pixel :=
  s.screen.getD (y * s.width + x) defaultPixel

/-- In-bounds predicate for signed coordinates: `[0,width) x [0,height)`. -/
def Screen.inB (s : Screen) (x y : Int) : Prop :=
  0 ≤ x ∧ x < (s.width : Int) ∧ 0 ≤ y ∧ y < (s.height : Int)

instance (s : Screen) (x y : Int) : Decidable (s.inB x y) := by
  unfold Screen.inB; infer_instance

instance (s : Screen) : Decidable s.wf := by
  unfold Screen.wf; infer_instance

/-- `Screen::new_fill`. -/
def Screen.new_fill (w h : Nat) (p : Pixel) : Screen :=
  ⟨w, h, List.replicate (w * h) p, false⟩

/-- `Screen::new`. -/
def Screen.new (w h : Nat) : Screen := Screen.new_fill w h (pxl ' ')

/-- `Screen::new_empty`. -/
def Screen.new_empty (w h : Nat) : Screen :=
  let scr := Screen.new_fill w h (pxl nulChar)
  { scr with empty := true }

/-- `Screen::from_vec`.  The Rust version asserts `vec.len() == width*height`;
the model is total and callers establish the length précondition. -/
def Screen.from_vec (v : List Pixel) (w h : Nat) : Screen := ⟨w, h, v, false⟩

/-- `Screen::fill`: refill the buffer, set `empty` iff the fill character is
the NUL sentinel. -/
def Screen.fill (s : Screen) (p : Pixel) : Screen :=
  { s with empty := decide (p.chr = nulChar),
           screen := List.replicate (s.width * s.height) p }

/-- `Screen::clear`. -/
def Screen.clear (s : Screen) : Screen := s.fill (pxl ' ')

/-- The scan loop of `Screen::check_empty`: `false` as soon as a non-NUL
character is found, else `true`. -/
def checkLoop : List Pixel → Bool
  | [] => true
  | q :: r => if q.chr ≠ nulChar then false else checkLoop r

/-- `Screen::check_empty`: O(n) scan refreshing the cached flag; returns the
scan result together with the updated screen (the Rust method mutates
`self.empty`). -/
def Screen.check_empty (s : Screen) : Bool × Screen :=
  (checkLoop s.screen, { s with empty := checkLoop s.screen })

/-- `Screen::is_empty`: the cached flag, no scan. -/
def Screen.is_empty (s : Screen) : Bool := s.empty

/-- `Screen::set_pxl`: bounds-checked single-cell write, silently dropped
out of bounds. -/
def Screen.set_pxl (s : Screen) (x y : Int) (c : Pixel) : Screen :=
  if 0 ≤ x ∧ 0 ≤ y ∧ x < (s.width : Int) ∧ y < (s.height : Int) then
    { s with screen := s.screen.set (coordToIndex s.width x y) c }
  else s

/-- Models the wrapping `u32` subtraction `w - 1` appearing in
`Screen::get_pxl`'s error message (release-mode semantics; a debug build
panics on `w = 0`). -/
def u32sub1 (w : Nat) : Nat := (w + 4294967295) % 4294967296

/-- The error string built by `Screen::get_pxl` for out-of-bounds reads. -/
def getPxlErrMsg (x y : Int) (w h : Nat) : String :=
  "Attempted to get_pxl out of bounds (coords: [" ++ toString x ++ ", " ++
    toString y ++ "], bounds: [" ++ toString (u32sub1 w) ++ ", " ++
    toString (u32sub1 h) ++ "])"

/-- `Screen::get_pxl`: bounds-checked read returning `Result<Pixel, String>`. -/
def Screen.get_pxl (s : Screen) (x y : Int) : Except String Pixel :=
  if 0 ≤ x ∧ 0 ≤ y ∧ x < (s.width : Int) ∧ y < (s.height : Int) then
    Except.ok (s.screen.getD (coordToIndex s.width x y) defaultPixel)
  else
    Except.error (getPxlErrMsg x y s.width s.height)

/-! ## The three set operations of `src/utils.rs` -/

variable {K : Type} [DecidableEq K]

/-- `utils::union`: push all of `l1`, then each element of `l2` not already
present in the accumulated result. -/
def union (l1 l2 : List K) : List K :=
  l2.foldl (fun acc e => if e ∈ acc then acc else acc ++ [e]) l1

/-- `utils::intersect`: the elements of `l1` contained in `l2`. -/
def intersect (l1 l2 : List K) : List K :=
  l1.filter (fun e => decide (e ∈ l2))

/-- `utils::outersect_left`: the elements of `l1` not contained in `l2`. -/
def outersect_left (l1 l2 : List K) : List K :=
  l1.filter (fun e => decide (e ∉ l2))

theorem mem_union {a : K} {l1 l2 : List K} : a ∈ union l1 l2 ↔ a ∈ l1 ∨ a ∈ l2 := by
  induction l2 generalizing l1 with
  | nil => simp [union]
  | cons e t ih =>
      show a ∈ union (if e ∈ l1 then l1 else l1 ++ [e]) t ↔ _
      rw [ih]
      by_cases he : e ∈ l1
      · simp only [he, if_true, List.mem_cons]
        constructor
        · tauto
        · rintro (h | rfl | h)
          · tauto
          · exact Or.inl he
          · tauto
      · simp only [he, if_false, List.mem_append, List.mem_singleton,
          List.mem_cons]
        tauto

theorem mem_intersect {a : K} {l1 l2 : List K} :
    a ∈ intersect l1 l2 ↔ a ∈ l1 ∧ a ∈ l2 := by
  simp [intersect]

theorem mem_outersect_left {a : K} {l1 l2 : List K} :
    a ∈ outersect_left l1 l2 ↔ a ∈ l1 ∧ a ∉ l2 := by
  simp [outersect_left]

/-! ## The engine's per-frame key-state update (`ConsoleEngine::wait_frame`) -/

/-- The three key sets held by `ConsoleEngine` (fields `keys_pressed`,
`keys_held`, `keys_released`).  The key-event type is kept abstract. -/
structure EngineKeys (K : Type) where
  keys_pressed : List K
  keys_held : List K
  keys_released : List K
deriving DecidableEq, Repr

/-- The initial (empty) key state set up by `ConsoleEngine::init`. -/
def initKeys : EngineKeys K := ⟨[], [], []⟩

/-- The key-state portion of `ConsoleEngine::wait_frame` (src/lib.rs lines
701-708): the once-per-frame derivation of pressed/held/released from the
raw captured keys. -/
def wait_frame_update (st : EngineKeys K) (captured_keyboard : List K) :
    EngineKeys K :=
  let held := intersect (union st.keys_pressed st.keys_held) captured_keyboard
  let released := outersect_left st.keys_held held
  let pressed := outersect_left captured_keyboard held
  ⟨pressed, union held pressed, released⟩

theorem mem_wait_pressed {st : EngineKeys K} {c : List K} {a : K} :
    a ∈ (wait_frame_update st c).keys_pressed ↔
      a ∈ c ∧ ¬(a ∈ st.keys_pressed ∨ a ∈ st.keys_held) := by
  simp only [wait_frame_update, mem_outersect_left, mem_intersect, mem_union]
  tauto

theorem mem_wait_held {st : EngineKeys K} {c : List K} {a : K} :
    a ∈ (wait_frame_update st c).keys_held ↔ a ∈ c := by
  simp only [wait_frame_update, mem_union, mem_outersect_left, mem_intersect]
  tauto

theorem mem_wait_released {st : EngineKeys K} {c : List K} {a : K} :
    a ∈ (wait_frame_update st c).keys_released ↔
      a ∈ st.keys_held ∧ a ∉ c := by
  simp only [wait_frame_update, mem_outersect_left, mem_intersect, mem_union]
  tauto

/-- Frame-indexed runs of the key-state machine: starting from the empty
state, the key `k` is raw-captured on frames `1..n` and absent afterwards. -/
def runFrames (k : K) (n : Nat) : Nat → EngineKeys K
  | 0 => initKeys
  | i + 1 => wait_frame_update (runFrames k n i) (if i + 1 ≤ n then [k] else [])

/-- The property asserted by claim C1: the concrete 4-frame capture sequence
`[ [k], [k], [], [k] ]` and the general `n`-consecutive-frames pattern. -/
def C1Prop (k : K) (n : Nat) : Prop :=
  (let s1 := wait_frame_update (initKeys (K := K)) [k]
   let s2 := wait_frame_update s1 [k]
   let s3 := wait_frame_update s2 []
   let s4 := wait_frame_update s3 [k]
   (k ∈ s1.keys_pressed ∧ k ∈ s1.keys_held ∧ k ∉ s1.keys_released) ∧
   (k ∉ s2.keys_pressed ∧ k ∈ s2.keys_held) ∧
   (k ∈ s3.keys_released ∧ k ∉ s3.keys_held) ∧
   k ∈ s4.keys_pressed) ∧
  (∀ i, 1 ≤ i → i ≤ n →
    ((k ∈ (runFrames k n i).keys_pressed ↔ i = 1) ∧
      k ∈ (runFrames k n i).keys_held ∧ k ∉ (runFrames k n i).keys_released)) ∧
  (k ∉ (runFrames k n (n + 1)).keys_pressed ∧
    k ∉ (runFrames k n (n + 1)).keys_held ∧
    k ∈ (runFrames k n (n + 1)).keys_released)

theorem runFrames_mem (k : K) (n i : Nat) (h1 : 1 ≤ i) (hn : i ≤ n) :
    (k ∈ (runFrames k n i).keys_pressed ↔ i = 1) ∧
      k ∈ (runFrames k n i).keys_held ∧ k ∉ (runFrames k n i).keys_released := by
  induction i with
  | zero => omega
  | succ j ih =>
      have hcap : (if j + 1 ≤ n then [k] else []) = [k] := by
        simp [Nat.succ_le_of_lt]; omega
      rcases Nat.eq_zero_or_pos j with hj | hj
      · subst hj
        simp only [runFrames, hcap]
        refine ⟨?_, ?_, ?_⟩
        · simp [mem_wait_pressed, initKeys]
        · simp [mem_wait_held]
        · simp [mem_wait_released, initKeys]
      · have hjn : j ≤ n := by omega
        obtain ⟨hp, hh, hr⟩ := ih hj hjn
        simp only [runFrames, hcap]
        refine ⟨?_, ?_, ?_⟩
        · simp only [mem_wait_pressed, List.mem_singleton]
          constructor
          · rintro ⟨-, hno⟩; exact absurd (Or.inr hh) hno
          · omega
        · simp [mem_wait_held]
        · simp [mem_wait_released]

/-- C1: input press/hold/release classification.  For the engine's key-state
update, the raw capture sequence `[ [k], [k], [], [k] ]` from the empty state
reports: frame 1 pressed+held, frame 2 held only, frame 3 released only,
frame 4 pressed again; and a key captured on `n ≥ 1` consecutive frames then
absent reports pressed only on frame 1, held on frames `1..n`, and released
on frame `n+1`. -/
theorem c1_input_state_machine (k : K) (n : Nat) (hn : 1 ≤ n) : C1Prop k n := by
  refine ⟨?_, ?_, ?_⟩
  · simp [mem_wait_pressed, mem_wait_held, mem_wait_released, initKeys]
  · intro i hi hin
    exact runFrames_mem k n i hi hin
  · have hcap : (if n + 1 ≤ n then [k] else ([] : List K)) = [] := by
      rw [if_neg (by omega)]
    obtain ⟨hp, hh, hr⟩ := runFrames_mem k n n hn (le_refl n)
    simp only [runFrames, hcap]
    refine ⟨?_, ?_, ?_⟩
    · simp [mem_wait_pressed]
    · simp [mem_wait_held]
    · simp [mem_wait_released, hh]

/-- Witness for C1 at a concrete instance: `K = Nat`, `k = 0`, `n = 2`. -/
theorem c1_input_state_machine_witness : 1 ≤ 2 ∧ C1Prop (0 : Nat) 2 :=
  ⟨by decide, c1_input_state_machine 0 2 (by decide)⟩

/-- C4 counterexample: the claimed invariant
`held = (previous pressed ∪ previous held) ∩ captured` fails on the very
first frame a fresh key is captured — the code's `held` additionally unions
in the newly pressed keys, so `held = [0]` while the claimed value is `[]`. -/
theorem c4_counterexample :
    (wait_frame_update (initKeys (K := Nat)) [0]).keys_held ≠
      intersect (union (initKeys (K := Nat)).keys_pressed
        (initKeys (K := Nat)).keys_held) [0] := by
  decide

/-- C4 (amended): after `wait_frame`, membership in the three sets is
characterized by: `held` ≡ the raw captured keys (the intermediate
`(prev pressed ∪ prev held) ∩ captured` is unioned with the new `pressed`,
which makes it the whole captured set); `pressed` ≡ captured keys not
previously pressed-or-held; `released` ≡ previously held keys not captured. -/
theorem c4_key_set_invariant (st : EngineKeys K) (c : List K) (a : K) :
    (a ∈ (wait_frame_update st c).keys_held ↔ a ∈ c) ∧
    (a ∈ (wait_frame_update st c).keys_pressed ↔
      a ∈ c ∧ ¬(a ∈ st.keys_pressed ∨ a ∈ st.keys_held)) ∧
    (a ∈ (wait_frame_update st c).keys_released ↔
      a ∈ st.keys_held ∧ a ∉ c) :=
  ⟨mem_wait_held, mem_wait_pressed, mem_wait_released⟩

/-! ## C9: the stale empty-cache at construction -/

theorem checkLoop_true_iff (l : List Pixel) :
    checkLoop l = true ↔ ∀ p ∈ l, p.chr = nulChar := by
  induction l with
  | nil => simp [checkLoop]
  | cons q r ih =>
      by_cases hq : q.chr = nulChar <;> simp [checkLoop, hq, ih]

/-- The property asserted by claim C9: `new_fill` (hence `new` and
`from_vec`) always caches `empty = false`, even for a NUL-character fill;
only `new_empty` and `fill` with a NUL-character pixel set the flag; and
`check_empty` on a NUL `new_fill` screen returns `true` although the cached
pre-refresh `is_empty` was `false`. -/
abbrev C9Prop : Prop :=
  (∀ w h p, (Screen.new_fill w h p).is_empty = false) ∧
  (∀ w h, (Screen.new w h).is_empty = false) ∧
  (∀ v w h, v.length = w * h → (Screen.from_vec v w h).is_empty = false) ∧
  (∀ w h, (Screen.new_empty w h).is_empty = true) ∧
  (∀ (s : Screen) (p : Pixel), ((s.fill p).is_empty = true ↔ p.chr = nulChar)) ∧
  (∀ w h, (Screen.new_fill w h (pxl nulChar)).check_empty.1 = true ∧
    (Screen.new_fill w h (pxl nulChar)).is_empty = false)

/-- C9: stale empty-cache at construction (see `C9Prop`). -/
theorem c9_stale_empty_cache : C9Prop := by
  refine ⟨fun w h p => rfl, fun w h => rfl, fun v w h _ => rfl,
    fun w h => rfl, fun s p => ?_, fun w h => ⟨?_, rfl⟩⟩
  · simp [Screen.fill, Screen.is_empty]
  · rw [Screen.check_empty]
    simp only [Screen.new_fill]
    rw [checkLoop_true_iff]
    intro p hp
    rw [List.eq_of_mem_replicate hp]
    rfl

/-- Witness for C9, discharging the `from_vec` length hypothesis at a
concrete instance. -/
theorem c9_stale_empty_cache_witness :
    [pxl 'a'].length = 1 * 1 ∧
      (Screen.from_vec [pxl 'a'] 1 1).is_empty = false :=
  ⟨by decide, c9_stale_empty_cache.2.2.1 [pxl 'a'] 1 1 (by decide)⟩

/-! ## Write traces

Each drawing primitive of `src/screen.rs` performs a sequence of
`set_pxl` calls whose arguments never depend on the screen's cell contents
(for most primitives not even on its dimensions).  We embed each primitive
as the fold of `set_pxl` over its explicit write trace; the trace
definitions mirror the source's control flow. -/

/-- One queued write: target coordinates and the pixel value. -/
abbrev Write := (Int × Int) × Pixel

/-- The ascending list of integers `a, a+1, ..., b-1`. -/
def rangeInt (a b : Int) : List Int :=
  (List.range (b - a).toNat).map (fun (k : Nat) => a + (k : Int))

/-- Apply a write trace to a screen via `Screen.set_pxl`. -/
def drawTrace (s : Screen) (tr : List Write) : Screen :=
  tr.foldl (fun t e => t.set_pxl e.1.1 e.1.2 e.2) s

/-- The screen's content as a function on coordinate pairs. -/
def Screen.cellF (s : Screen) : Int × Int → Pixel := fun c => s.cell c.1 c.2

/-- The same write trace applied on the unclipped (infinite) plane,
extending a base content function: later writes win. -/
def unclippedApply (f : Int × Int → Pixel) (tr : List Write) : Int × Int → Pixel :=
  tr.foldl (fun g e => fun c => if c = e.1 then e.2 else g c) f

theorem mem_rangeInt {a b x : Int} : x ∈ rangeInt a b ↔ a ≤ x ∧ x < b := by
  simp only [rangeInt, List.mem_map, List.mem_range]
  constructor
  · rintro ⟨k, hk, rfl⟩
    omega
  · rintro ⟨h1, h2⟩
    exact ⟨(x - a).toNat, by omega, by omega⟩

theorem set_pxl_width (s : Screen) (a b : Int) (p : Pixel) :
    (s.set_pxl a b p).width = s.width := by
  unfold Screen.set_pxl; split <;> rfl

theorem set_pxl_height (s : Screen) (a b : Int) (p : Pixel) :
    (s.set_pxl a b p).height = s.height := by
  unfold Screen.set_pxl; split <;> rfl

theorem set_pxl_length (s : Screen) (a b : Int) (p : Pixel) :
    (s.set_pxl a b p).screen.length = s.screen.length := by
  unfold Screen.set_pxl; split <;> simp

theorem set_pxl_wf (s : Screen) (a b : Int) (p : Pixel) (h : s.wf) :
    (s.set_pxl a b p).wf := by
  unfold Screen.wf at h ⊢
  rw [set_pxl_length, set_pxl_width, set_pxl_height]
  exact h

theorem coordToIndex_eq (w : Nat) (x y : Int) (hx : 0 ≤ x) (hy : 0 ≤ y) :
    coordToIndex w x y = y.toNat * w + x.toNat := by
  unfold coordToIndex
  lift x to Nat using hx
  lift y to Nat using hy
  have h : ((y * w + x : Nat) : Int) = (y : Int) * (w : Int) + (x : Int) := by
    push_cast; ring
  rw [← h, Int.toNat_natCast, Int.toNat_natCast, Int.toNat_natCast]

theorem natIdx_inj {w x1 y1 x2 y2 : Nat} (h1 : x1 < w) (h2 : x2 < w)
    (h : y1 * w + x1 = y2 * w + x2) : x1 = x2 ∧ y1 = y2 := by
  have hw : 0 < w := Nat.lt_of_le_of_lt (Nat.zero_le x1) h1
  have hy : y1 = y2 := by
    have e1 : (x1 + w * y1) / w = y1 := by
      rw [Nat.add_mul_div_left _ _ hw, Nat.div_eq_of_lt h1, Nat.zero_add]
    have e2 : (x2 + w * y2) / w = y2 := by
      rw [Nat.add_mul_div_left _ _ hw, Nat.div_eq_of_lt h2, Nat.zero_add]
    rw [← e1, ← e2]
    have hcomm : x1 + w * y1 = x2 + w * y2 := by
      rw [Nat.mul_comm w y1, Nat.mul_comm w y2]; omega
    rw [hcomm]
  refine ⟨?_, hy⟩
  subst hy
  omega

theorem cell_oob_lt (s : Screen) (hwf : s.wf) (x y : Int) (hin : s.inB x y) :
    coordToIndex s.width x y < s.screen.length := by
  obtain ⟨hx0, hxw, hy0, hyh⟩ := hin
  rw [coordToIndex_eq _ _ _ hx0 hy0, hwf]
  have hx : x.toNat < s.width := by omega
  have hy : y.toNat < s.height := by omega
  calc y.toNat * s.width + x.toNat < y.toNat * s.width + s.width := by omega
    _ = (y.toNat + 1) * s.width := by ring
    _ ≤ s.height * s.width := Nat.mul_le_mul_right _ (by omega)
    _ = s.width * s.height := Nat.mul_comm _ _

theorem set_pxl_cell (s : Screen) (hwf : s.wf) (a b : Int) (p : Pixel)
    (x y : Int) (hin : s.inB x y) :
    (s.set_pxl a b p).cell x y = if (x, y) = (a, b) then p else s.cell x y := by
  obtain ⟨hx0, hxw, hy0, hyh⟩ := hin
  unfold Screen.set_pxl Screen.cell
  by_cases hab : 0 ≤ a ∧ 0 ≤ b ∧ a < (s.width : Int) ∧ b < (s.height : Int)
  · rw [if_pos hab]
    simp only
    by_cases heq : (x, y) = (a, b)
    · obtain ⟨rfl, rfl⟩ : x = a ∧ y = b := by
        constructor <;> [exact congrArg Prod.fst heq; exact congrArg Prod.snd heq]
      rw [if_pos rfl]
      have hlt : coordToIndex s.width x y < s.screen.length :=
        cell_oob_lt s hwf x y ⟨hx0, hxw, hy0, hyh⟩
      rw [List.getD_eq_getElem _ _ (by simpa using hlt)]
      simp [List.getElem_set]
    · rw [if_neg heq]
      have hne : coordToIndex s.width a b ≠ coordToIndex s.width x y := by
        obtain ⟨ha0, hb0, haw, hbh⟩ := hab
        rw [coordToIndex_eq _ _ _ ha0 hb0, coordToIndex_eq _ _ _ hx0 hy0]
        intro hc
        have := natIdx_inj (w := s.width) (by omega) (by omega) hc
        apply heq
        have hx : x = a := by omega
        have hy : y = b := by omega
        rw [hx, hy]
      rcases Nat.lt_or_ge (coordToIndex s.width x y) s.screen.length with hj | hj
      · rw [List.getD_eq_getElem _ _ (by simpa using hj),
          List.getD_eq_getElem _ _ hj]
        simp [List.getElem_set, hne]
      · rw [List.getD_eq_default _ _ (by simpa using hj),
          List.getD_eq_default _ _ hj]
  · rw [if_neg hab]
    have heq : (x, y) ≠ (a, b) := by
      intro hc
      apply hab
      have hx : x = a := congrArg Prod.fst hc
      have hy : y = b := congrArg Prod.snd hc
      exact ⟨by omega, by omega, by omega, by omega⟩
    rw [if_neg heq]

theorem unclippedApply_congr (tr : List Write) (f g : Int × Int → Pixel)
    (c : Int × Int) (h : f c = g c) :
    unclippedApply f tr c = unclippedApply g tr c := by
  induction tr generalizing f g with
  | nil => exact h
  | cons e t ih =>
      show unclippedApply _ t c = unclippedApply _ t c
      apply ih
      by_cases hc : c = e.1 <;> simp [hc, h]

theorem drawTrace_cons (s : Screen) (e : Write) (t : List Write) :
    drawTrace s (e :: t) = drawTrace (s.set_pxl e.1.1 e.1.2 e.2) t := rfl

theorem drawTrace_width (tr : List Write) (s : Screen) :
    (drawTrace s tr).width = s.width := by
  induction tr generalizing s with
  | nil => rfl
  | cons e t ih => rw [drawTrace_cons, ih, set_pxl_width]

theorem drawTrace_height (tr : List Write) (s : Screen) :
    (drawTrace s tr).height = s.height := by
  induction tr generalizing s with
  | nil => rfl
  | cons e t ih => rw [drawTrace_cons, ih, set_pxl_height]

theorem drawTrace_length (tr : List Write) (s : Screen) :
    (drawTrace s tr).screen.length = s.screen.length := by
  induction tr generalizing s with
  | nil => rfl
  | cons e t ih => rw [drawTrace_cons, ih, set_pxl_length]

theorem drawTrace_wf (tr : List Write) (s : Screen) (h : s.wf) :
    (drawTrace s tr).wf := by
  unfold Screen.wf at h ⊢
  rw [drawTrace_length, drawTrace_width, drawTrace_height]
  exact h

theorem drawTrace_cell (tr : List Write) (s : Screen) (hwf : s.wf)
    (x y : Int) (hin : s.inB x y) :
    (drawTrace s tr).cell x y = unclippedApply s.cellF tr (x, y) := by
  induction tr generalizing s with
  | nil => rfl
  | cons e t ih =>
      show (drawTrace (s.set_pxl e.1.1 e.1.2 e.2) t).cell x y = _
      have hin' : (s.set_pxl e.1.1 e.1.2 e.2).inB x y := by
        unfold Screen.inB at hin ⊢
        rwa [set_pxl_width, set_pxl_height]
      rw [ih _ (set_pxl_wf s _ _ _ hwf) hin']
      show _ = unclippedApply (fun c => if c = e.1 then e.2 else s.cellF c) t (x, y)
      apply unclippedApply_congr
      show (s.set_pxl e.1.1 e.1.2 e.2).cell x y = _
      rw [set_pxl_cell s hwf _ _ _ x y hin]
      by_cases hc : (x, y) = e.1
      · rw [if_pos hc, if_pos (show (x, y) = (e.1.1, e.1.2) from hc)]
      · rw [if_neg (show ¬(x, y) = (e.1.1, e.1.2) from hc), if_neg hc]
        rfl

/-- The clipping contract of a drawing primitive with write trace `tr`:
dimensions and buffer length are preserved (so no cell outside the buffer
can be touched), and every in-bounds cell equals what the unclipped draw
(`unclippedApply` of the same trace on the infinite plane) produces there. -/
def Clips (op : Screen → Screen) (tr : List Write) (s : Screen) : Prop :=
  (op s).width = s.width ∧ (op s).height = s.height ∧
  (op s).screen.length = s.screen.length ∧
  ∀ x y, s.inB x y → (op s).cell x y = unclippedApply s.cellF tr (x, y)

theorem drawTrace_clips (tr : List Write) (s : Screen) (hwf : s.wf) :
    Clips (fun t => drawTrace t tr) tr s :=
  ⟨drawTrace_width tr s, drawTrace_height tr s, drawTrace_length tr s,
    fun x y hin => drawTrace_cell tr s hwf x y hin⟩

/-! ## Straight lines (`Screen::h_line`, `Screen::v_line`, `Screen::line`) -/

/-- Write trace of `Screen::h_line`: endpoints auto-ordered, inclusive. -/
def hLineTrace (x0 y0 x1 : Int) (p : Pixel) : List Write :=
  (rangeInt (if x0 > x1 then x1 else x0) (if x0 > x1 then x0 + 1 else x1 + 1)).map
    (fun i => ((i, y0), p))

/-- Write trace of `Screen::v_line`. -/
def vLineTrace (x0 y0 y1 : Int) (p : Pixel) : List Write :=
  (rangeInt (if y0 > y1 then y1 else y0) (if y0 > y1 then y0 + 1 else y1 + 1)).map
    (fun j => ((x0, j), p))

/-- The `line_low` loop of `Screen::line` (Bresenham, x-major): one step per
remaining x value, carrying the current y and error accumulator d. -/
def lineLowGo (p : Pixel) (dx dy yi : Int) : Nat → Int → Int → Int → List Write
  | 0, _, _, _ => []
  | n + 1, x, y, d =>
      ((x, y), p) ::
        (if d > 0 then lineLowGo p dx dy yi n (x + 1) (y + yi) (d - 2 * dx + 2 * dy)
         else lineLowGo p dx dy yi n (x + 1) y (d + 2 * dy))

/-- `line_low` entry: normalizes dy's sign into `yi`, loops x from `x0` to
`x1` inclusive. -/
def lineLowTrace (x0 y0 x1 y1 : Int) (p : Pixel) : List Write :=
  let dx := x1 - x0
  let yi : Int := if y1 - y0 < 0 then -1 else 1
  let dy : Int := if y1 - y0 < 0 then -(y1 - y0) else y1 - y0
  lineLowGo p dx dy yi ((x1 + 1) - x0).toNat x0 y0 (2 * dy - dx)

/-- The `line_high` loop of `Screen::line` (y-major). -/
def lineHighGo (p : Pixel) (dx dy xi : Int) : Nat → Int → Int → Int → List Write
  | 0, _, _, _ => []
  | n + 1, x, y, d =>
      ((x, y), p) ::
        (if d > 0 then lineHighGo p dx dy xi n (x + xi) (y + 1) (d - 2 * dy + 2 * dx)
         else lineHighGo p dx dy xi n x (y + 1) (d + 2 * dx))

/-- `line_high` entry. -/
def lineHighTrace (x0 y0 x1 y1 : Int) (p : Pixel) : List Write :=
  let dy := y1 - y0
  let xi : Int := if x1 - x0 < 0 then -1 else 1
  let dx : Int := if x1 - x0 < 0 then -(x1 - x0) else x1 - x0
  lineHighGo p dx dy xi ((y1 + 1) - y0).toNat x0 y0 (2 * dx - dy)

/-- Write trace of `Screen::line`: dispatch to `h_line`/`v_line` for
axis-aligned lines, else Bresenham low/high with endpoint normalization. -/
def lineTrace (x0 y0 x1 y1 : Int) (p : Pixel) : List Write :=
  if y1 - y0 = 0 then hLineTrace x0 y0 x1 p
  else if x1 - x0 = 0 then vLineTrace x0 y0 y1 p
  else if (y1 - y0).natAbs < (x1 - x0).natAbs then
    (if x0 > x1 then lineLowTrace x1 y1 x0 y0 p else lineLowTrace x0 y0 x1 y1 p)
  else
    (if y0 > y1 then lineHighTrace x1 y1 x0 y0 p else lineHighTrace x0 y0 x1 y1 p)

/-- `Screen::h_line`. -/
def Screen.h_line (s : Screen) (start_x start_y end_x : Int) (character : Pixel) :
    Screen :=
  drawTrace s (hLineTrace start_x start_y end_x character)

/-- `Screen::v_line`. -/
def Screen.v_line (s : Screen) (start_x start_y end_y : Int) (character : Pixel) :
    Screen :=
  drawTrace s (vLineTrace start_x start_y end_y character)

/-- `Screen::line`. -/
def Screen.line (s : Screen) (start_x start_y end_x end_y : Int)
    (character : Pixel) : Screen :=
  drawTrace s (lineTrace start_x start_y end_x end_y character)

theorem hLineTrace_swap (x0 y0 x1 : Int) (p : Pixel) :
    hLineTrace x0 y0 x1 p = hLineTrace x1 y0 x0 p := by
  unfold hLineTrace
  rcases lt_trichotomy x0 x1 with h | h | h
  · rw [if_neg (by omega), if_neg (by omega), if_pos (by omega), if_pos (by omega)]
  · subst h; rfl
  · rw [if_pos (by omega), if_pos (by omega), if_neg (by omega), if_neg (by omega)]

theorem vLineTrace_swap (x0 y0 y1 : Int) (p : Pixel) :
    vLineTrace x0 y0 y1 p = vLineTrace x0 y1 y0 p := by
  unfold vLineTrace
  rcases lt_trichotomy y0 y1 with h | h | h
  · rw [if_neg (by omega), if_neg (by omega), if_pos (by omega), if_pos (by omega)]
  · subst h; rfl
  · rw [if_pos (by omega), if_pos (by omega), if_neg (by omega), if_neg (by omega)]

theorem lineTrace_swap (x0 y0 x1 y1 : Int) (p : Pixel) :
    lineTrace x0 y0 x1 y1 p = lineTrace x1 y1 x0 y0 p := by
  unfold lineTrace
  split_ifs <;>
    first
    | rfl
    | omega
    | (rw [show y1 = y0 by omega]; exact hLineTrace_swap x0 y0 x1 p)
    | (rw [show x1 = x0 by omega]; exact vLineTrace_swap x0 y0 y1 p)

/-- C3: line symmetry.  For every pair of integer endpoints and every pixel,
`line(x0,y0,x1,y1,p)` and `line(x1,y1,x0,y0,p)` produce exactly the same
final screen (so in particular identical pixel sets), on every screen. -/
theorem c3_line_symmetry (s : Screen) (x0 y0 x1 y1 : Int) (p : Pixel) :
    s.line x0 y0 x1 y1 p = s.line x1 y1 x0 y0 p := by
  unfold Screen.line
  rw [lineTrace_swap]

/-! ## C10: the frame effect of `Screen::set_pxl` -/

/-- The property asserted by claim C10: an in-bounds `set_pxl` stores the
pixel at its target cell, leaves every other cell untouched, and `set_pxl`
(in or out of bounds) never changes width, height or buffer length. -/
abbrev C10Prop : Prop :=
  (∀ (s : Screen) (x y : Int) (p : Pixel),
    (s.set_pxl x y p).width = s.width ∧ (s.set_pxl x y p).height = s.height ∧
    (s.set_pxl x y p).screen.length = s.screen.length) ∧
  (∀ (s : Screen), s.wf → ∀ (x y : Int) (p : Pixel), s.inB x y →
    (s.set_pxl x y p).cell x y = p ∧
    (∀ i j : Int, s.inB i j → (i, j) ≠ (x, y) →
      (s.set_pxl x y p).cell i j = s.cell i j))

/-- C10: `set_pxl` frame effect (see `C10Prop`). -/
theorem c10_set_pxl_frame_effect : C10Prop := by
  constructor
  · exact fun s x y p => ⟨set_pxl_width s x y p, set_pxl_height s x y p,
      set_pxl_length s x y p⟩
  · intro s hwf x y p hin
    constructor
    · rw [set_pxl_cell s hwf x y p x y hin, if_pos rfl]
    · intro i j hij hne
      rw [set_pxl_cell s hwf x y p i j hij, if_neg hne]

/-- Witness for C10 at a concrete screen and coordinate. -/
theorem c10_set_pxl_frame_effect_witness :
    (Screen.new 2 2).wf ∧ (Screen.new 2 2).inB 1 0 ∧
      ((Screen.new 2 2).set_pxl 1 0 (pxl 'x')).cell 1 0 = pxl 'x' :=
  ⟨by decide, by decide,
    (c10_set_pxl_frame_effect.2 (Screen.new 2 2) (by decide) 1 0 (pxl 'x')
      (by decide)).1⟩

/-! ## Rectangles, circles, triangles (`src/screen.rs`) -/

/-- `BorderStyle` (src/rect_style.rs): six pixels. -/
structure BorderStyle where
  corner_top_left : Pixel
  corner_top_right : Pixel
  corner_bottom_left : Pixel
  corner_bottom_right : Pixel
  top_bottom : Pixel
  left_right : Pixel
deriving DecidableEq, Repr

/-- Write trace of `Screen::rect`: top, right, bottom, left edges. -/
def rectTrace (sx sy ex ey : Int) (p : Pixel) : List Write :=
  hLineTrace sx sy ex p ++ vLineTrace ex sy ey p ++
    hLineTrace ex ey sx p ++ vLineTrace sx ey sy p

/-- `Screen::rect`. -/
def Screen.rect (s : Screen) (start_x start_y end_x end_y : Int)
    (character : Pixel) : Screen :=
  drawTrace s (rectTrace start_x start_y end_x end_y character)

/-- Write trace of `Screen::rect_border`: the four styled edges, then the
four corner pixels (corners last, so they overwrite edge endpoints). -/
def rectBorderTrace (sx sy ex ey : Int) (st : BorderStyle) : List Write :=
  hLineTrace sx sy ex st.top_bottom ++ vLineTrace ex sy ey st.left_right ++
    hLineTrace ex ey sx st.top_bottom ++ vLineTrace sx ey sy st.left_right ++
    [((sx, sy), st.corner_top_left), ((ex, sy), st.corner_top_right),
      ((sx, ey), st.corner_bottom_left), ((ex, ey), st.corner_bottom_right)]

/-- `Screen::rect_border`. -/
def Screen.rect_border (s : Screen) (start_x start_y end_x end_y : Int)
    (rect_style : BorderStyle) : Screen :=
  drawTrace s (rectBorderTrace start_x start_y end_x end_y rect_style)

/-- Write trace of `Screen::fill_rect`: one `h_line` per row of the
order-normalized inclusive row range. -/
def fillRectTrace (sx sy ex ey : Int) (p : Pixel) : List Write :=
  (rangeInt (if sy < ey then sy else ey) (if sy < ey then ey + 1 else sy + 1)).flatMap
    (fun yy => hLineTrace sx yy ex p)

/-- `Screen::fill_rect`. -/
def Screen.fill_rect (s : Screen) (start_x start_y end_x end_y : Int)
    (character : Pixel) : Screen :=
  drawTrace s (fillRectTrace start_x start_y end_x end_y character)

/-- The midpoint-circle loop of `Screen::circle`: eight symmetric points per
step.  The `while relative_pos_y >= relative_pos_x` loop is driven by a fuel
that starts at `(rpy + 1 - rpx).toNat`, which strictly exceeds the number of
remaining iterations (rpx increases by one each step, rpy never increases),
so the fuel never runs out before the guard fails. -/
def circleGo (xc yc : Int) (p : Pixel) : Nat → Int → Int → Int → List Write
  | 0, _, _, _ => []
  | n + 1, rpx, rpy, d =>
      if rpx ≤ rpy then
        ((xc + rpx, yc - rpy), p) :: ((xc + rpy, yc - rpx), p) ::
          ((xc + rpy, yc + rpx), p) :: ((xc + rpx, yc + rpy), p) ::
          ((xc - rpx, yc + rpy), p) :: ((xc - rpy, yc + rpx), p) ::
          ((xc - rpy, yc - rpx), p) :: ((xc - rpx, yc - rpy), p) ::
          (if d < 0 then circleGo xc yc p n (rpx + 1) rpy (d + 4 * rpx + 6)
           else circleGo xc yc p n (rpx + 1) (rpy - 1) (d + 4 * (rpx - rpy) + 10))
      else []

/-- Write trace of `Screen::circle` (radius 0 returns immediately). -/
def circleTrace (x y : Int) (radius : Nat) (p : Pixel) : List Write :=
  if radius = 0 then []
  else circleGo x y p (radius + 1) 0 (radius : Int) (3 - 2 * (radius : Int))

/-- `Screen::circle`. -/
def Screen.circle (s : Screen) (x y : Int) (radius : Nat) (character : Pixel) :
    Screen :=
  drawTrace s (circleTrace x y radius character)

/-- The `drawline` closure of `Screen::fill_circle`: a fast horizontal
scanline `start_x ..= end_x` at row `y`. -/
def scanlineTrace (sx ex y : Int) (p : Pixel) : List Write :=
  (rangeInt sx (ex + 1)).map (fun i => ((i, y), p))

/-- The loop of `Screen::fill_circle`: four scanlines per step. -/
def fillCircleGo (xc yc : Int) (p : Pixel) : Nat → Int → Int → Int → List Write
  | 0, _, _, _ => []
  | n + 1, rpx, rpy, d =>
      if rpx ≤ rpy then
        scanlineTrace (xc - rpx) (xc + rpx) (yc - rpy) p ++
          scanlineTrace (xc - rpy) (xc + rpy) (yc - rpx) p ++
          scanlineTrace (xc - rpx) (xc + rpx) (yc + rpy) p ++
          scanlineTrace (xc - rpy) (xc + rpy) (yc + rpx) p ++
          (if d < 0 then fillCircleGo xc yc p n (rpx + 1) rpy (d + 4 * rpx + 6)
           else fillCircleGo xc yc p n (rpx + 1) (rpy - 1) (d + 4 * (rpx - rpy) + 10))
      else []

/-- Write trace of `Screen::fill_circle`. -/
def fillCircleTrace (x y : Int) (radius : Nat) (p : Pixel) : List Write :=
  if radius = 0 then []
  else fillCircleGo x y p (radius + 1) 0 (radius : Int) (3 - 2 * (radius : Int))

/-- `Screen::fill_circle`. -/
def Screen.fill_circle (s : Screen) (x y : Int) (radius : Nat)
    (character : Pixel) : Screen :=
  drawTrace s (fillCircleTrace x y radius character)

/-- Write trace of `Screen::triangle`: three lines. -/
def triangleTrace (x1 y1 x2 y2 x3 y3 : Int) (p : Pixel) : List Write :=
  lineTrace x1 y1 x2 y2 p ++ lineTrace x2 y2 x3 y3 p ++ lineTrace x3 y3 x1 y1 p

/-- `Screen::triangle`. -/
def Screen.triangle (s : Screen) (x1 y1 x2 y2 x3 y3 : Int)
    (character : Pixel) : Screen :=
  drawTrace s (triangleTrace x1 y1 x2 y2 x3 y3 character)

/-! ### `Screen::fill_triangle` -/

/-- `orient2d` from `Screen::fill_triangle`. -/
def orient2d (a b c : Int × Int) : Int :=
  (b.1 - a.1) * (c.2 - a.2) - (b.2 - a.2) * (c.1 - a.1)

/-- The top-left fill-rule bias of `Screen::fill_triangle`: edge `(a, b)`
gets bias 0 when `is_top_left(a,b) = a.1 > b.1`, else -1. -/
def biasOf (a b : Int × Int) : Int := if a.2 > b.2 then 0 else -1

/-- Inner rasterizer row of `Screen::fill_triangle`: walk `n` columns from
`x0`, carrying the three incrementally-updated edge values; emit the pixel
when all three are nonnegative (the source's `(w0 | w1 | w2) >= 0` test on
`i32`s: the sign bit of a bitwise or is the or of the sign bits, so the test
holds exactly when all three are `>= 0`). -/
def rasterRowGo (p : Pixel) (a12 a20 a01 : Int) (y : Int) :
    Nat → Int → Int → Int → Int → List Write
  | 0, _, _, _, _ => []
  | n + 1, x, w0, w1, w2 =>
      (if 0 ≤ w0 ∧ 0 ≤ w1 ∧ 0 ≤ w2 then [((x, y), p)] else []) ++
        rasterRowGo p a12 a20 a01 y n (x + 1) (w0 + a12) (w1 + a20) (w2 + a01)

/-- Outer rasterizer loop of `Screen::fill_triangle`: walk `n` rows from
`y0`, carrying the per-row starting edge values. -/
def rasterGo (p : Pixel) (a12 a20 a01 b12 b20 b01 minx maxx : Int) :
    Nat → Int → Int → Int → Int → List Write
  | 0, _, _, _, _ => []
  | n + 1, y, w0r, w1r, w2r =>
      rasterRowGo p a12 a20 a01 y (maxx - minx).toNat minx w0r w1r w2r ++
        rasterGo p a12 a20 a01 b12 b20 b01 minx maxx n (y + 1) (w0r + b12)
          (w1r + b20) (w2r + b01)

/-- The barycentric rasterization part of `Screen::fill_triangle`, for the
already-winding-normalized vertices and an explicit bounding box.  Matches
the source: setup of the six edge deltas, top-left biases, starting edge
values at `(minx, miny)`, and the incremental double loop over
`miny..maxy` (exclusive) and `minx..maxx` (exclusive). -/
def fillTriRaster (v0 v1 v2 : Int × Int) (minx maxx miny maxy : Int)
    (p : Pixel) : List Write :=
  let a01 := v0.2 - v1.2
  let b01 := v1.1 - v0.1
  let a12 := v1.2 - v2.2
  let b12 := v2.1 - v1.1
  let a20 := v2.2 - v0.2
  let b20 := v0.1 - v2.1
  rasterGo p a12 a20 a01 b12 b20 b01 minx maxx (maxy - miny).toNat miny
    (orient2d v1 v2 (minx, miny) + biasOf v1 v2)
    (orient2d v2 v0 (minx, miny) + biasOf v2 v0)
    (orient2d v0 v1 (minx, miny) + biasOf v0 v1)

/-- Winding normalization of `Screen::fill_triangle`: swap `v1`/`v2` when
the cross product is positive. -/
def windTri (x1 y1 x2 y2 x3 y3 : Int) : (Int × Int) × (Int × Int) × (Int × Int) :=
  let v0 := (x1, y1)
  let v1 := (x2, y2)
  let v2 := (x3, y3)
  let cross := (v1.2 - v0.2) * (v2.1 - v1.1) - (v1.1 - v0.1) * (v2.2 - v1.2)
  if cross > 0 then (v0, v2, v1) else (v0, v1, v2)

/-- Write trace of `Screen::fill_triangle` on a `w × h` screen: first the
outline (`Screen::triangle`), then the rasterized fill over the bounding box
clamped to `[0, w-1] × [0, h-1]`. -/
def fillTriangleTrace (w h : Nat) (x1 y1 x2 y2 x3 y3 : Int) (p : Pixel) :
    List Write :=
  triangleTrace x1 y1 x2 y2 x3 y3 p ++
    (let t := windTri x1 y1 x2 y2 x3 y3
     let v0 := t.1
     let v1 := t.2.1
     let v2 := t.2.2
     fillTriRaster v0 v1 v2
       (max (min (min v0.1 v1.1) v2.1) 0)
       (min (max (max v0.1 v1.1) v2.1) ((w : Int) - 1))
       (max (min (min v0.2 v1.2) v2.2) 0)
       (min (max (max v0.2 v1.2) v2.2) ((h : Int) - 1)) p)

/-- Modelled from the spec: the unclipped `fill_triangle` draw referenced by
the clipping property — the same algorithm with the bounding box not clamped
to the screen. -/
def fillTriangleTraceU (x1 y1 x2 y2 x3 y3 : Int) (p : Pixel) : List Write :=
  triangleTrace x1 y1 x2 y2 x3 y3 p ++
    (let t := windTri x1 y1 x2 y2 x3 y3
     let v0 := t.1
     let v1 := t.2.1
     let v2 := t.2.2
     fillTriRaster v0 v1 v2
       (min (min v0.1 v1.1) v2.1) (max (max v0.1 v1.1) v2.1)
       (min (min v0.2 v1.2) v2.2) (max (max v0.2 v1.2) v2.2) p)

/-- `Screen::fill_triangle`. -/
def Screen.fill_triangle (s : Screen) (x1 y1 x2 y2 x3 y3 : Int)
    (character : Pixel) : Screen :=
  drawTrace s (fillTriangleTrace s.width s.height x1 y1 x2 y2 x3 y3 character)

/-! ### `Screen::print_screen` -/

/-- Write trace of `Screen::print_screen`: composite the source screen cell
by cell (row-major), each write going through `set_pxl` at the offset
coordinates.  The source's `source.get_pxl(i, j).unwrap()` is the in-range
read `Screen.cellN`. -/
def printScreenTrace (x y : Int) (src : Screen) : List Write :=
  (List.range src.height).flatMap (fun (j : Nat) =>
    (List.range src.width).map (fun (i : Nat) =>
      ((x + (i : Int), y + (j : Int)), src.cellN i j)))

/-- `Screen::print_screen`. -/
def Screen.print_screen (s : Screen) (x y : Int) (source : Screen) : Screen :=
  drawTrace s (printScreenTrace x y source)

/-! ## C8: the `get_pxl` error contract -/

/-- The property asserted by claim C8 (amended to screens with `u32`
dimensions at least 1): `get_pxl` returns `ok` of the stored pixel exactly
on in-bounds coordinates, and otherwise the error message built from the
offending coordinates and the buffer bounds `width-1`, `height-1`, each of
which occurs verbatim in the message. -/
def C8Prop (s : Screen) : Prop :=
  ∀ x y : Int,
    (s.inB x y → s.get_pxl x y = Except.ok (s.cell x y)) ∧
    (s.get_pxl x y = Except.ok (s.cell x y) ↔ s.inB x y) ∧
    (¬s.inB x y →
      s.get_pxl x y = Except.error (getPxlErrMsg x y s.width s.height) ∧
      getPxlErrMsg x y s.width s.height =
        ("Attempted to get_pxl out of bounds (coords: [" ++ toString x ++
          ", " ++ toString y ++ "], bounds: [" ++ toString (s.width - 1) ++
          ", " ++ toString (s.height - 1) ++ "])"))

theorem u32sub1_eq (w : Nat) (h1 : 1 ≤ w) (h2 : w < 4294967296) :
    u32sub1 w = w - 1 := by
  unfold u32sub1
  omega

theorem get_pxl_ok_ne_error (m : String) (p : Pixel) :
    (Except.error m : Except String Pixel) ≠ Except.ok p := by
  intro h
  exact Except.noConfusion h

/-- C8 (amended): the `get_pxl` error contract on screens with
`1 ≤ width < 2^32` and `1 ≤ height < 2^32` (the `u32` value range, excluding
the zero sizes on which the error path's `width - 1` wraps). -/
theorem c8_get_pxl_contract (s : Screen) (hwf : s.wf)
    (hw1 : 1 ≤ s.width) (hw2 : s.width < 4294967296)
    (hh1 : 1 ≤ s.height) (hh2 : s.height < 4294967296) : C8Prop s := by
  intro x y
  have hok : s.inB x y → s.get_pxl x y = Except.ok (s.cell x y) := by
    rintro ⟨h1, h2, h3, h4⟩
    unfold Screen.get_pxl Screen.cell
    rw [if_pos ⟨h1, h3, h2, h4⟩]
  have herr : ¬s.inB x y →
      s.get_pxl x y = Except.error (getPxlErrMsg x y s.width s.height) := by
    intro hnin
    have hng : ¬(0 ≤ x ∧ 0 ≤ y ∧ x < (s.width : Int) ∧ y < (s.height : Int)) :=
      fun hc => hnin ⟨hc.1, hc.2.2.1, hc.2.1, hc.2.2.2⟩
    unfold Screen.get_pxl
    rw [if_neg hng]
  refine ⟨hok, ⟨?_, hok⟩, ?_⟩
  · intro heq
    by_contra hnin
    rw [herr hnin] at heq
    exact get_pxl_ok_ne_error _ _ heq
  · intro hnin
    refine ⟨herr hnin, ?_⟩
    unfold getPxlErrMsg
    rw [u32sub1_eq _ hw1 hw2, u32sub1_eq _ hh1 hh2]

/-- Witness for C8 on a concrete screen and out-of-bounds coordinate. -/
theorem c8_get_pxl_contract_witness :
    ((Screen.new 2 3).wf ∧ 1 ≤ (Screen.new 2 3).width ∧
      (Screen.new 2 3).width < 4294967296 ∧ 1 ≤ (Screen.new 2 3).height ∧
      (Screen.new 2 3).height < 4294967296) ∧ C8Prop (Screen.new 2 3) :=
  ⟨⟨by decide, by decide, by decide, by decide, by decide⟩,
    c8_get_pxl_contract (Screen.new 2 3) (by decide) (by decide) (by decide)
      (by decide) (by decide)⟩

/-! ## `Screen::extract` -/

theorem getD_set_self {α : Type} (l : List α) (i : Nat) (a d : α)
    (h : i < l.length) : (l.set i a).getD i d = a := by
  rw [List.getD_eq_getElem _ _ (by simpa using h)]
  simp [List.getElem_set]

theorem getD_set_ne {α : Type} (l : List α) (i j : Nat) (a : α) (d : α)
    (hne : i ≠ j) : (l.set i a).getD j d = l.getD j d := by
  rcases Nat.lt_or_ge j l.length with hj | hj
  · rw [List.getD_eq_getElem _ _ (by simpa using hj), List.getD_eq_getElem _ _ hj]
    simp [List.getElem_set, hne]
  · rw [List.getD_eq_default _ _ (by simpa using hj), List.getD_eq_default _ _ hj]

theorem natIdx_lt {w h x y : Nat} (hx : x < w) (hy : y < h) :
    y * w + x < w * h := by
  calc y * w + x < y * w + w := by omega
    _ = (y + 1) * w := by ring
    _ ≤ h * w := Nat.mul_le_mul_right _ (by omega)
    _ = w * h := Nat.mul_comm _ _

theorem rangeInt_zero (a : Int) : rangeInt a a = [] := by
  unfold rangeInt
  rw [show (a - a).toNat = 0 by omega]
  rfl

theorem rangeInt_cons (a b : Int) (h : a < b) :
    rangeInt a b = a :: rangeInt (a + 1) b := by
  unfold rangeInt
  rw [show (b - a).toNat = (b - (a + 1)).toNat + 1 by omega,
    List.range_succ_eq_map]
  simp only [List.map_cons, List.map_map]
  refine congrArg₂ List.cons (by simp) ?_
  apply List.map_congr_left
  intro k _
  show a + ((k + 1 : Nat) : Int) = (a + 1) + (k : Int)
  push_cast
  ring

/-- Inner loop of `Screen::extract` over one row: walk the source columns
`i` (the `is` list), maintaining the target column counter `x` (stepping by
`xstep` = +1 or -1, mirroring `x_reversed`); in-bounds source cells are
copied into the target buffer at `(y * target_width) + x`. -/
def extractRowGo (s : Screen) (tw : Nat) (y j xstep : Int) :
    List Int → List Pixel → Int → List Pixel
  | [], buf, _ => buf
  | i :: rest, buf, x =>
      let buf2 :=
        if 0 ≤ i ∧ i < (s.width : Int) ∧ 0 ≤ j ∧ j < (s.height : Int) then
          buf.set ((y * (tw : Int)) + x).toNat
            (s.screen.getD (coordToIndex s.width i j) defaultPixel)
        else buf
      extractRowGo s tw y j xstep rest buf2 (x + xstep)

/-- Outer loop of `Screen::extract` over the rows `j` (the `js` list),
maintaining the target row counter `y` (stepping by `ystep`, mirroring
`y_reversed`); the target column counter restarts per row. -/
def extractGo (s : Screen) (tw : Nat) (xstart xstep ystep : Int)
    (is : List Int) : List Int → List Pixel → Int → List Pixel
  | [], buf, _ => buf
  | j :: rest, buf, y =>
      extractGo s tw xstart xstep ystep is rest
        (extractRowGo s tw y j xstep is buf xstart) (y + ystep)

/-- `Screen::extract`: build a `target_width × target_height` buffer filled
with `default`, copy the (possibly reversed) rectangle from the source, and
wrap it via `from_vec`. -/
def Screen.extract (s : Screen) (start_x start_y end_x end_y : Int)
    (default : Pixel) : Screen :=
  let target_width : Nat := (end_x - start_x).natAbs + 1
  let target_height : Nat := (end_y - start_y).natAbs + 1
  let x_reversed := start_x > end_x
  let y_reversed := start_y > end_y
  let js := if y_reversed then rangeInt end_y (start_y + 1)
            else rangeInt start_y (end_y + 1)
  let is := if x_reversed then rangeInt end_x (start_x + 1)
            else rangeInt start_x (end_x + 1)
  let buf := extractGo s target_width
    (if x_reversed then (target_width : Int) - 1 else 0)
    (if x_reversed then -1 else 1) (if y_reversed then -1 else 1) is js
    (List.replicate (target_width * target_height) default)
    (if y_reversed then (target_height : Int) - 1 else 0)
  Screen.from_vec buf target_width target_height

theorem extractRowGo_cons (s : Screen) (tw : Nat) (y j xstep i : Int)
    (rest : List Int) (buf : List Pixel) (x : Int) :
    extractRowGo s tw y j xstep (i :: rest) buf x =
      extractRowGo s tw y j xstep rest
        (if 0 ≤ i ∧ i < (s.width : Int) ∧ 0 ≤ j ∧ j < (s.height : Int) then
          buf.set ((y * (tw : Int)) + x).toNat
            (s.screen.getD (coordToIndex s.width i j) defaultPixel)
        else buf) (x + xstep) := rfl

theorem extractRowGo_length (s : Screen) (tw : Nat) (y j xstep : Int)
    (is : List Int) : ∀ (buf : List Pixel) (x : Int),
    (extractRowGo s tw y j xstep is buf x).length = buf.length := by
  induction is with
  | nil => intro buf x; rfl
  | cons i rest ih =>
      intro buf x
      rw [extractRowGo_cons, ih]
      split <;> simp

theorem extractRowGo_unwritten (s : Screen) (tw : Nat) (y j : Int)
    (xstep : Int) (hstep : xstep = 1 ∨ xstep = -1) (n : Nat) :
    ∀ (a x0 : Int) (buf : List Pixel), 0 ≤ y →
    (∀ k : Nat, k < n → 0 ≤ x0 + k * xstep ∧ x0 + k * xstep < (tw : Int)) →
    ∀ (tx ty : Nat), tx < tw →
    (ty ≠ y.toNat ∨ ∀ k : Nat, k < n → x0 + k * xstep ≠ (tx : Int)) →
    (extractRowGo s tw y j xstep (rangeInt a (a + (n : Int))) buf x0).getD
        (ty * tw + tx) defaultPixel =
      buf.getD (ty * tw + tx) defaultPixel := by
  induction n with
  | zero =>
      intro a x0 buf _ _ tx ty _ _
      rw [show a + ((0 : Nat) : Int) = a by push_cast; ring, rangeInt_zero]
      rfl
  | succ m ih =>
      intro a x0 buf hy hx tx ty htx hmiss
      rw [rangeInt_cons a _ (by push_cast; omega),
        show a + ((m + 1 : Nat) : Int) = (a + 1) + ((m : Nat) : Int) by push_cast; ring,
        extractRowGo_cons]
      have hx0 : 0 ≤ x0 ∧ x0 < (tw : Int) := by
        have := hx 0 (by omega)
        push_cast at this
        omega
      have hxshift : ∀ k : Nat, k < m →
          0 ≤ (x0 + xstep) + k * xstep ∧ (x0 + xstep) + k * xstep < (tw : Int) := by
        intro k hk
        have := hx (k + 1) (by omega)
        push_cast at this ⊢
        rcases hstep with rfl | rfl <;> omega
      have hmiss2 : ty ≠ y.toNat ∨ ∀ k : Nat, k < m →
          (x0 + xstep) + k * xstep ≠ (tx : Int) := by
        rcases hmiss with hmiss | hmiss
        · exact Or.inl hmiss
        · refine Or.inr ?_
          intro k hk
          have := hmiss (k + 1) (by omega)
          push_cast at this ⊢
          rcases hstep with rfl | rfl <;> omega
      rw [ih (a + 1) (x0 + xstep) _ hy hxshift tx ty htx hmiss2]
      split
      · rename_i hg
        apply getD_set_ne
        have hidx : ((y * (tw : Int)) + x0).toNat = y.toNat * tw + x0.toNat :=
          coordToIndex_eq tw x0 y hx0.1 hy
        rw [hidx]
        intro hc
        have hinj := natIdx_inj (w := tw) (by omega) htx hc
        rcases hmiss with hmiss | hmiss
        · exact hmiss (by omega)
        · refine hmiss 0 (by omega) ?_
          push_cast
          omega
      · rfl

theorem extractRowGo_written (s : Screen) (tw th : Nat) (y j : Int)
    (xstep : Int) (hstep : xstep = 1 ∨ xstep = -1) (n : Nat) :
    ∀ (a x0 : Int) (buf : List Pixel) (k : Nat), 0 ≤ y → y.toNat < th →
    buf.length = tw * th →
    (∀ m : Nat, m < n → 0 ≤ x0 + m * xstep ∧ x0 + m * xstep < (tw : Int)) →
    ∀ (tx : Nat), tx < tw → k < n → x0 + k * xstep = (tx : Int) →
    (extractRowGo s tw y j xstep (rangeInt a (a + (n : Int))) buf x0).getD
        (y.toNat * tw + tx) defaultPixel =
      (if 0 ≤ a + (k : Int) ∧ a + (k : Int) < (s.width : Int) ∧
          0 ≤ j ∧ j < (s.height : Int) then
        s.screen.getD (coordToIndex s.width (a + (k : Int)) j) defaultPixel
      else buf.getD (y.toNat * tw + tx) defaultPixel) := by
  induction n with
  | zero => intro a x0 buf k _ _ _ _ tx _ hk _; omega
  | succ m ih =>
      intro a x0 buf k hy hyth hlen hx tx htx hk hkx
      rw [rangeInt_cons a _ (by push_cast; omega),
        show a + ((m + 1 : Nat) : Int) = (a + 1) + ((m : Nat) : Int) by push_cast; ring,
        extractRowGo_cons]
      have hx0 : 0 ≤ x0 ∧ x0 < (tw : Int) := by
        have := hx 0 (by omega)
        push_cast at this
        omega
      have hidx : ((y * (tw : Int)) + x0).toNat = y.toNat * tw + x0.toNat :=
        coordToIndex_eq tw x0 y hx0.1 hy
      have hxshift : ∀ m2 : Nat, m2 < m →
          0 ≤ (x0 + xstep) + m2 * xstep ∧ (x0 + xstep) + m2 * xstep < (tw : Int) := by
        intro m2 hm2
        have := hx (m2 + 1) (by omega)
        push_cast at this ⊢
        rcases hstep with rfl | rfl <;> omega
      cases k with
      | zero =>
          have hx0tx : x0 = (tx : Int) := by
            push_cast at hkx
            omega
          have hmiss2 : y.toNat ≠ y.toNat ∨ ∀ k2 : Nat, k2 < m →
              (x0 + xstep) + k2 * xstep ≠ (tx : Int) := by
            refine Or.inr ?_
            intro k2 hk2
            push_cast
            rcases hstep with rfl | rfl <;> omega
          rw [extractRowGo_unwritten s tw y j xstep hstep m (a + 1) (x0 + xstep) _
            hy hxshift tx y.toNat htx hmiss2]
          rw [show a + ((0 : Nat) : Int) = a by push_cast; ring]
          have htarget : ((y * (tw : Int)) + x0).toNat = y.toNat * tw + tx := by
            rw [hidx, hx0tx]
            simp
          split
          · rw [htarget]
            exact getD_set_self _ _ _ _ (by rw [hlen]; exact natIdx_lt htx hyth)
          · rfl
      | succ k2 =>
          have hne : x0 ≠ (tx : Int) := by
            push_cast at hkx
            rcases hstep with rfl | rfl <;> omega
          have hkx2 : (x0 + xstep) + (k2 : Int) * xstep = (tx : Int) := by
            push_cast at hkx ⊢
            rcases hstep with rfl | rfl <;> omega
          have hlen2 : (if 0 ≤ a ∧ a < (s.width : Int) ∧ 0 ≤ j ∧
              j < (s.height : Int) then
            buf.set ((y * (tw : Int)) + x0).toNat
              (s.screen.getD (coordToIndex s.width a j) defaultPixel)
            else buf).length = tw * th := by
            split <;> simp [hlen]
          rw [ih (a + 1) (x0 + xstep) _ k2 hy hyth hlen2 hxshift tx htx
            (by omega) hkx2]
          have hcast : (a + 1) + (k2 : Int) = a + ((k2 + 1 : Nat) : Int) := by
            push_cast; ring
          rw [hcast]
          have hbufeq : (if 0 ≤ a ∧ a < (s.width : Int) ∧ 0 ≤ j ∧
              j < (s.height : Int) then
            buf.set ((y * (tw : Int)) + x0).toNat
              (s.screen.getD (coordToIndex s.width a j) defaultPixel)
            else buf).getD (y.toNat * tw + tx) defaultPixel =
              buf.getD (y.toNat * tw + tx) defaultPixel := by
            split
            · apply getD_set_ne
              rw [hidx]
              intro hc
              have hinj := natIdx_inj (w := tw) (by omega) htx hc
              exact hne (by omega)
            · rfl
          rw [hbufeq]


theorem extractGo_cons (s : Screen) (tw : Nat) (xstart xstep ystep : Int)
    (is : List Int) (j : Int) (rest : List Int) (buf : List Pixel) (y : Int) :
    extractGo s tw xstart xstep ystep is (j :: rest) buf y =
      extractGo s tw xstart xstep ystep is rest
        (extractRowGo s tw y j xstep is buf xstart) (y + ystep) := rfl

theorem extractGo_unwritten (s : Screen) (tw : Nat)
    (xstart xstep ystep : Int) (hxstep : xstep = 1 ∨ xstep = -1)
    (hystep : ystep = 1 ∨ ystep = -1) (nx : Nat) (ax : Int)
    (hx : ∀ m : Nat, m < nx →
      0 ≤ xstart + m * xstep ∧ xstart + m * xstep < (tw : Int)) (n : Nat) :
    ∀ (b y0 : Int) (buf : List Pixel),
    (∀ r : Nat, r < n → 0 ≤ y0 + r * ystep) →
    ∀ (tx ty : Nat), tx < tw →
    (∀ r : Nat, r < n → y0 + r * ystep ≠ (ty : Int)) →
    (extractGo s tw xstart xstep ystep (rangeInt ax (ax + (nx : Int)))
        (rangeInt b (b + (n : Int))) buf y0).getD (ty * tw + tx) defaultPixel =
      buf.getD (ty * tw + tx) defaultPixel := by
  induction n with
  | zero =>
      intro b y0 buf _ tx ty _ _
      rw [show b + ((0 : Nat) : Int) = b by push_cast; ring, rangeInt_zero]
      rfl
  | succ m ih =>
      intro b y0 buf hys tx ty htx hmiss
      rw [rangeInt_cons b _ (by push_cast; omega),
        show b + ((m + 1 : Nat) : Int) = (b + 1) + ((m : Nat) : Int) by push_cast; ring,
        extractGo_cons]
      have hy0 : 0 ≤ y0 := by
        have := hys 0 (by omega)
        push_cast at this
        omega
      have hys2 : ∀ r : Nat, r < m → 0 ≤ (y0 + ystep) + r * ystep := by
        intro r hr
        have := hys (r + 1) (by omega)
        push_cast at this ⊢
        rcases hystep with rfl | rfl <;> omega
      have hmiss2 : ∀ r : Nat, r < m → (y0 + ystep) + r * ystep ≠ (ty : Int) := by
        intro r hr
        have := hmiss (r + 1) (by omega)
        push_cast at this ⊢
        rcases hystep with rfl | rfl <;> omega
      rw [ih (b + 1) (y0 + ystep) _ hys2 tx ty htx hmiss2]
      have hnety : ty ≠ y0.toNat := by
        have := hmiss 0 (by omega)
        push_cast at this
        omega
      exact extractRowGo_unwritten s tw y0 b xstep hxstep nx ax xstart buf hy0
        hx tx ty htx (Or.inl hnety)

theorem extractGo_written (s : Screen) (tw th : Nat)
    (xstart xstep ystep : Int) (hxstep : xstep = 1 ∨ xstep = -1)
    (hystep : ystep = 1 ∨ ystep = -1) (nx : Nat) (ax : Int)
    (hx : ∀ m : Nat, m < nx →
      0 ≤ xstart + m * xstep ∧ xstart + m * xstep < (tw : Int)) (n : Nat) :
    ∀ (b y0 : Int) (buf : List Pixel) (r : Nat),
    buf.length = tw * th →
    (∀ r2 : Nat, r2 < n →
      0 ≤ y0 + r2 * ystep ∧ y0 + r2 * ystep < (th : Int)) →
    ∀ (tx ty k : Nat), tx < tw → ty < th →
    r < n → y0 + r * ystep = (ty : Int) →
    k < nx → xstart + k * xstep = (tx : Int) →
    (extractGo s tw xstart xstep ystep (rangeInt ax (ax + (nx : Int)))
        (rangeInt b (b + (n : Int))) buf y0).getD (ty * tw + tx) defaultPixel =
      (if 0 ≤ ax + (k : Int) ∧ ax + (k : Int) < (s.width : Int) ∧
          0 ≤ b + (r : Int) ∧ b + (r : Int) < (s.height : Int) then
        s.screen.getD (coordToIndex s.width (ax + (k : Int)) (b + (r : Int)))
          defaultPixel
      else buf.getD (ty * tw + tx) defaultPixel) := by
  induction n with
  | zero => intro b y0 buf r _ _ tx ty k _ _ hr _ _ _; omega
  | succ m ih =>
      intro b y0 buf r hlen hys tx ty k htx hty hr hry hk hkx
      rw [rangeInt_cons b _ (by push_cast; omega),
        show b + ((m + 1 : Nat) : Int) = (b + 1) + ((m : Nat) : Int) by push_cast; ring,
        extractGo_cons]
      have hy0 : 0 ≤ y0 ∧ y0 < (th : Int) := by
        have := hys 0 (by omega)
        push_cast at this
        omega
      have hys2 : ∀ r2 : Nat, r2 < m →
          0 ≤ (y0 + ystep) + r2 * ystep ∧ (y0 + ystep) + r2 * ystep < (th : Int) := by
        intro r2 hr2
        have := hys (r2 + 1) (by omega)
        push_cast at this ⊢
        rcases hystep with rfl | rfl <;> omega
      cases r with
      | zero =>
          have hy0ty : y0 = (ty : Int) := by
            push_cast at hry
            omega
          have hmiss2 : ∀ r2 : Nat, r2 < m →
              (y0 + ystep) + r2 * ystep ≠ (ty : Int) := by
            intro r2 hr2
            push_cast
            rcases hystep with rfl | rfl <;> omega
          rw [extractGo_unwritten s tw xstart xstep ystep hxstep hystep nx ax hx m
            (b + 1) (y0 + ystep) _ (fun r2 hr2 => (hys2 r2 hr2).1) tx ty htx hmiss2]
          have hrow := extractRowGo_written s tw th y0 b xstep hxstep nx ax
            xstart buf k hy0.1 (by omega) hlen hx tx htx hk hkx
          rw [show y0.toNat = ty by omega] at hrow
          rw [hrow, show b + ((0 : Nat) : Int) = b by push_cast; ring]
      | succ r2 =>
          have hnety : ty ≠ y0.toNat := by
            push_cast at hry
            rcases hystep with rfl | rfl <;> omega
          have hry2 : (y0 + ystep) + (r2 : Int) * ystep = (ty : Int) := by
            push_cast at hry ⊢
            rcases hystep with rfl | rfl <;> omega
          have hlen2 : (extractRowGo s tw y0 b xstep
              (rangeInt ax (ax + (nx : Int))) buf xstart).length = tw * th := by
            rw [extractRowGo_length]
            exact hlen
          rw [ih (b + 1) (y0 + ystep) _ r2 hlen2 hys2 tx ty k htx hty (by omega)
            hry2 hk hkx]
          have hbufeq : (extractRowGo s tw y0 b xstep
              (rangeInt ax (ax + (nx : Int))) buf xstart).getD
                (ty * tw + tx) defaultPixel =
              buf.getD (ty * tw + tx) defaultPixel :=
            extractRowGo_unwritten s tw y0 b xstep hxstep nx ax xstart buf
              hy0.1 hx tx ty htx (Or.inl hnety)
          rw [hbufeq, show (b + 1) + (r2 : Int) = b + ((r2 + 1 : Nat) : Int) by
            push_cast; ring]

theorem getD_replicate_lt {α : Type} (n i : Nat) (d d0 : α) (h : i < n) :
    (List.replicate n d).getD i d0 = d := by
  rw [List.getD_eq_getElem _ _ (by simpa using h)]
  simp

/-- The source coordinate read into target column `tx` by
`Screen::extract`: `start_x + tx` normally, `start_x - tx` when the x order
is reversed. -/
def extractSrcX (sx ex : Int) (tx : Nat) : Int :=
  if sx > ex then sx - (tx : Int) else sx + (tx : Int)

/-- The source coordinate read into target row `ty` by `Screen::extract`. -/
def extractSrcY (sy ey : Int) (ty : Nat) : Int :=
  if sy > ey then sy - (ty : Int) else sy + (ty : Int)

theorem extract_width (s : Screen) (sx sy ex ey : Int) (d : Pixel) :
    (s.extract sx sy ex ey d).width = (ex - sx).natAbs + 1 := rfl

theorem extract_height (s : Screen) (sx sy ex ey : Int) (d : Pixel) :
    (s.extract sx sy ex ey d).height = (ey - sy).natAbs + 1 := rfl

theorem extract_cellN (s : Screen) (sx sy ex ey : Int) (d : Pixel)
    (tx ty : Nat) (htx : tx < (ex - sx).natAbs + 1)
    (hty : ty < (ey - sy).natAbs + 1) :
    (s.extract sx sy ex ey d).cellN tx ty =
      (if 0 ≤ extractSrcX sx ex tx ∧ extractSrcX sx ex tx < (s.width : Int) ∧
          0 ≤ extractSrcY sy ey ty ∧ extractSrcY sy ey ty < (s.height : Int) then
        s.cell (extractSrcX sx ex tx) (extractSrcY sy ey ty)
      else d) := by
  unfold Screen.extract Screen.cellN Screen.from_vec
  dsimp only
  set tw : Nat := (ex - sx).natAbs + 1 with htw
  set th : Nat := (ey - sy).natAbs + 1 with hth
  by_cases hxrev : sx > ex <;> by_cases hyrev : sy > ey
  all_goals simp only [hxrev, hyrev, ite_true, ite_false]
  · -- x reversed, y reversed
    have hrw1 : rangeInt ey (sy + 1) = rangeInt ey (ey + (th : Int)) := by
      rw [show sy + 1 = ey + (th : Int) by rw [hth]; omega]
    have hrw2 : rangeInt ex (sx + 1) = rangeInt ex (ex + (tw : Int)) := by
      rw [show sx + 1 = ex + (tw : Int) by rw [htw]; omega]
    rw [hrw1, hrw2]
    rw [extractGo_written s tw th ((tw : Int) - 1) (-1) (-1) (Or.inr rfl)
      (Or.inr rfl) tw ex ?_ th ey ((th : Int) - 1)
      (List.replicate (tw * th) d) (th - 1 - ty) (by simp) ?_ tx ty
      (tw - 1 - tx) htx hty (by omega) ?_ (by omega) ?_]
    · rw [getD_replicate_lt _ _ _ _ (natIdx_lt htx hty)]
      have hex : ex + ((tw - 1 - tx : Nat) : Int) = extractSrcX sx ex tx := by
        unfold extractSrcX
        rw [if_pos hxrev, htw]
        omega
      have hey : ey + ((th - 1 - ty : Nat) : Int) = extractSrcY sy ey ty := by
        unfold extractSrcY
        rw [if_pos hyrev, hth]
        omega
      rw [hex, hey]
      rfl
    · intro m hm
      omega
    · intro r2 hr2
      omega
    · omega
    · omega
  · -- x reversed, y forward
    have hrw1 : rangeInt sy (ey + 1) = rangeInt sy (sy + (th : Int)) := by
      rw [show ey + 1 = sy + (th : Int) by rw [hth]; omega]
    have hrw2 : rangeInt ex (sx + 1) = rangeInt ex (ex + (tw : Int)) := by
      rw [show sx + 1 = ex + (tw : Int) by rw [htw]; omega]
    rw [hrw1, hrw2]
    rw [extractGo_written s tw th ((tw : Int) - 1) (-1) 1 (Or.inr rfl)
      (Or.inl rfl) tw ex ?_ th sy 0
      (List.replicate (tw * th) d) ty (by simp) ?_ tx ty
      (tw - 1 - tx) htx hty (by omega) ?_ (by omega) ?_]
    · rw [getD_replicate_lt _ _ _ _ (natIdx_lt htx hty)]
      have hex : ex + ((tw - 1 - tx : Nat) : Int) = extractSrcX sx ex tx := by
        unfold extractSrcX
        rw [if_pos hxrev, htw]
        omega
      have hey : sy + ((ty : Nat) : Int) = extractSrcY sy ey ty := by
        unfold extractSrcY
        rw [if_neg hyrev]
      rw [hex, hey]
      rfl
    · intro m hm
      omega
    · intro r2 hr2
      omega
    · omega
    · omega
  · -- x forward, y reversed
    have hrw1 : rangeInt ey (sy + 1) = rangeInt ey (ey + (th : Int)) := by
      rw [show sy + 1 = ey + (th : Int) by rw [hth]; omega]
    have hrw2 : rangeInt sx (ex + 1) = rangeInt sx (sx + (tw : Int)) := by
      rw [show ex + 1 = sx + (tw : Int) by rw [htw]; omega]
    rw [hrw1, hrw2]
    rw [extractGo_written s tw th 0 1 (-1) (Or.inl rfl)
      (Or.inr rfl) tw sx ?_ th ey ((th : Int) - 1)
      (List.replicate (tw * th) d) (th - 1 - ty) (by simp) ?_ tx ty
      tx htx hty (by omega) ?_ (by omega) ?_]
    · rw [getD_replicate_lt _ _ _ _ (natIdx_lt htx hty)]
      have hex : sx + ((tx : Nat) : Int) = extractSrcX sx ex tx := by
        unfold extractSrcX
        rw [if_neg hxrev]
      have hey : ey + ((th - 1 - ty : Nat) : Int) = extractSrcY sy ey ty := by
        unfold extractSrcY
        rw [if_pos hyrev, hth]
        omega
      rw [hex, hey]
      rfl
    · intro m hm
      omega
    · intro r2 hr2
      omega
    · omega
    · omega
  · -- x forward, y forward
    have hrw1 : rangeInt sy (ey + 1) = rangeInt sy (sy + (th : Int)) := by
      rw [show ey + 1 = sy + (th : Int) by rw [hth]; omega]
    have hrw2 : rangeInt sx (ex + 1) = rangeInt sx (sx + (tw : Int)) := by
      rw [show ex + 1 = sx + (tw : Int) by rw [htw]; omega]
    rw [hrw1, hrw2]
    rw [extractGo_written s tw th 0 1 1 (Or.inl rfl)
      (Or.inl rfl) tw sx ?_ th sy 0
      (List.replicate (tw * th) d) ty (by simp) ?_ tx ty
      tx htx hty (by omega) ?_ (by omega) ?_]
    · rw [getD_replicate_lt _ _ _ _ (natIdx_lt htx hty)]
      have hex : sx + ((tx : Nat) : Int) = extractSrcX sx ex tx := by
        unfold extractSrcX
        rw [if_neg hxrev]
      have hey : sy + ((ty : Nat) : Int) = extractSrcY sy ey ty := by
        unfold extractSrcY
        rw [if_neg hyrev]
      rw [hex, hey]
      rfl
    · intro m hm
      omega
    · intro r2 hr2
      omega
    · omega
    · omega

theorem cell_cast (s : Screen) (tx ty : Nat) :
    s.cell (tx : Int) (ty : Int) = s.cellN tx ty := by
  unfold Screen.cell Screen.cellN
  rw [coordToIndex_eq _ _ _ (Int.natCast_nonneg tx) (Int.natCast_nonneg ty),
    Int.toNat_natCast, Int.toNat_natCast]

/-- The property asserted by claim C7 (amended to screens with at least one
column and one row for the round-trip part): full-size extraction returns a
screen with the same dimensions and the same pixel at every coordinate;
swapping the x (resp. y) coordinate order returns the horizontal (resp.
vertical) mirror of the unswapped extraction; the source screen is a pure
input and is never modified. -/
abbrev C7Prop (s : Screen) : Prop :=
  (∀ d : Pixel, 1 ≤ s.width → 1 ≤ s.height →
    (s.extract 0 0 ((s.width : Int) - 1) ((s.height : Int) - 1) d).width = s.width ∧
    (s.extract 0 0 ((s.width : Int) - 1) ((s.height : Int) - 1) d).height = s.height ∧
    ∀ tx ty : Nat, tx < s.width → ty < s.height →
      (s.extract 0 0 ((s.width : Int) - 1) ((s.height : Int) - 1) d).cellN tx ty =
        s.cellN tx ty) ∧
  (∀ (sx sy ex ey : Int) (d : Pixel),
    (s.extract ex sy sx ey d).width = (s.extract sx sy ex ey d).width ∧
    (s.extract ex sy sx ey d).height = (s.extract sx sy ex ey d).height ∧
    ∀ tx ty : Nat, tx < (ex - sx).natAbs + 1 → ty < (ey - sy).natAbs + 1 →
      (s.extract ex sy sx ey d).cellN tx ty =
        (s.extract sx sy ex ey d).cellN ((ex - sx).natAbs - tx) ty) ∧
  (∀ (sx sy ex ey : Int) (d : Pixel),
    (s.extract sx ey ex sy d).width = (s.extract sx sy ex ey d).width ∧
    (s.extract sx ey ex sy d).height = (s.extract sx sy ex ey d).height ∧
    ∀ tx ty : Nat, tx < (ex - sx).natAbs + 1 → ty < (ey - sy).natAbs + 1 →
      (s.extract sx ey ex sy d).cellN tx ty =
        (s.extract sx sy ex ey d).cellN tx ((ey - sy).natAbs - ty))

/-- C7 (amended): extract round-trip (for screens with `width, height ≥ 1`)
and the reversed-coordinate mirror laws (see `C7Prop`). -/
theorem c7_extract_roundtrip_mirror (s : Screen) : C7Prop s := by
  refine ⟨?_, ?_, ?_⟩
  · intro d hw hh
    refine ⟨?_, ?_, ?_⟩
    · rw [extract_width]; omega
    · rw [extract_height]; omega
    · intro tx ty htx hty
      rw [extract_cellN s 0 0 _ _ d tx ty (by omega) (by omega)]
      have hsx : extractSrcX 0 ((s.width : Int) - 1) tx = (tx : Int) := by
        unfold extractSrcX
        rw [if_neg (by omega)]
        omega
      have hsy : extractSrcY 0 ((s.height : Int) - 1) ty = (ty : Int) := by
        unfold extractSrcY
        rw [if_neg (by omega)]
        omega
      rw [hsx, hsy, if_pos (by constructor <;> [omega; constructor <;>
        [omega; constructor <;> omega]])]
      exact cell_cast s tx ty
  · intro sx sy ex ey d
    refine ⟨?_, ?_, ?_⟩
    · rw [extract_width, extract_width]; omega
    · rw [extract_height, extract_height]
    · intro tx ty htx hty
      rw [extract_cellN s ex sy sx ey d tx ty (by omega) (by omega),
        extract_cellN s sx sy ex ey d ((ex - sx).natAbs - tx) ty (by omega)
          (by omega)]
      have hx : extractSrcX ex sx tx = extractSrcX sx ex ((ex - sx).natAbs - tx) := by
        unfold extractSrcX
        split_ifs <;> omega
      rw [hx]
  · intro sx sy ex ey d
    refine ⟨?_, ?_, ?_⟩
    · rw [extract_width, extract_width]
    · rw [extract_height, extract_height]; omega
    · intro tx ty htx hty
      rw [extract_cellN s sx ey ex sy d tx ty (by omega) (by omega),
        extract_cellN s sx sy ex ey d tx ((ey - sy).natAbs - ty) htx (by omega)]
      have hy : extractSrcY ey sy ty = extractSrcY sy ey ((ey - sy).natAbs - ty) := by
        unfold extractSrcY
        split_ifs <;> omega
      rw [hy]

/-- Witness for C7 instantiating the round-trip hypotheses on a concrete
2×2 screen. -/
theorem c7_extract_roundtrip_mirror_witness :
    1 ≤ (Screen.new 2 2).width ∧ 1 ≤ (Screen.new 2 2).height ∧
      ((Screen.new 2 2).extract 0 0 1 1 (pxl 'q')).width = (Screen.new 2 2).width :=
  ⟨by decide, by decide,
    ((c7_extract_roundtrip_mirror (Screen.new 2 2)).1 (pxl 'q')
      (by decide) (by decide)).1⟩

/-- C7 counterexample: the claim quantifies over every screen, but on the
legal zero-sized screen `Screen::new(0, 0)` the "full-size" extraction
`extract(0, 0, width-1, height-1, default)` passes `-1` endpoints, so the
result is a 2×2 default screen instead of a copy of the 0×0 original. -/
theorem c7_counterexample :
    ((Screen.new 0 0).extract 0 0 ((0 : Int) - 1) ((0 : Int) - 1)
        defaultPixel).width ≠ (Screen.new 0 0).width := by
  decide

/-! ## C6: shared-edge behavior of `Screen::fill_triangle` -/

/-- C6 counterexample: the triangles `(0,0),(2,0),(2,2)` and
`(0,0),(2,2),(0,2)` share the edge `(0,0)-(2,2)`; filling each separately on
a 5×5 screen writes the shared-edge pixel `(1,1)` in *both* write traces
(each `fill_triangle` begins by drawing its outline with `triangle()`), so
the claimed "no pixel on the shared edge is drawn by both fills /
exactly-once coverage" is false. -/
theorem c6_counterexample :
    (((1 : Int), (1 : Int)), pxl '#') ∈ fillTriangleTrace 5 5 0 0 2 0 2 2 (pxl '#') ∧
      (((1 : Int), (1 : Int)), pxl '#') ∈ fillTriangleTrace 5 5 0 0 2 2 0 2 (pxl '#') := by
  decide

/-- C6 (amended): because `fill_triangle` first draws the triangle outline
via three `line` calls, two triangles sharing an edge (`(x1,y1)-(x2,y2)`,
listed in opposite order by the two triangles) both write every pixel of
that edge's Bresenham line: the shared edge is double-drawn, not
exactly-once. -/
theorem c6_fill_triangle_shared_edge (w h : Nat)
    (x1 y1 x2 y2 x3 y3 x4 y4 : Int) (p : Pixel) (e : Write)
    (he : e ∈ lineTrace x1 y1 x2 y2 p) :
    e ∈ fillTriangleTrace w h x1 y1 x2 y2 x3 y3 p ∧
      e ∈ fillTriangleTrace w h x2 y2 x1 y1 x4 y4 p := by
  constructor
  · unfold fillTriangleTrace triangleTrace
    rw [List.mem_append, List.mem_append, List.mem_append]
    exact Or.inl (Or.inl (Or.inl he))
  · unfold fillTriangleTrace triangleTrace
    rw [List.mem_append, List.mem_append, List.mem_append]
    rw [lineTrace_swap] at he
    exact Or.inl (Or.inl (Or.inl he))

/-- Witness for C6 at the concrete shared edge `(0,0)-(2,2)`. -/
theorem c6_fill_triangle_shared_edge_witness :
    (((1 : Int), (1 : Int)), pxl 'e') ∈ lineTrace 0 0 2 2 (pxl 'e') ∧
      ((((1 : Int), (1 : Int)), pxl 'e') ∈ fillTriangleTrace 4 4 0 0 2 2 3 0 (pxl 'e') ∧
        (((1 : Int), (1 : Int)), pxl 'e') ∈ fillTriangleTrace 4 4 2 2 0 0 0 3 (pxl 'e')) :=
  ⟨by decide,
    c6_fill_triangle_shared_edge 4 4 0 0 2 2 3 0 0 3 (pxl 'e')
      (((1 : Int), (1 : Int)), pxl 'e') (by decide)⟩

/-! ## `Screen::print_fbg` -/

/-- The `string.find('\n')` line-cutting step of `Screen::print_fbg` for a
negative starting row: drop characters through the first newline, `none`
when there is none. -/
def dropThroughNewline : List Char → Option (List Char)
  | [] => none
  | c :: r => if c = '\n' then some r else dropThroughNewline r

/-- The `while delta_y > 0` loop of `Screen::print_fbg`: cut one line per
unit of negative starting row; when no newline remains the string becomes
empty. -/
def cutLines : Nat → List Char → List Char
  | 0, cs => cs
  | n + 1, cs =>
      match dropThroughNewline cs with
      | some r => cutLines n r
      | none => []

/-- The character loop of `Screen::print_fbg` (src/screen.rs lines 180-212):
processes `\n` (next row, break when past the bottom, reset the left-clip
skip counter), `\r` (return to the start column), `\t` (treated as a
space), and ordinary characters (skipped while the left-clip counter
`ignore` is positive, written only while the cursor stays on its row —
`origin_row == pos / width` — which implements truncation at the right
edge).  The loop's two panic paths are modelled as `none`: evaluating
`pos / self.get_width()` (line 205) divides by zero when the width is 0,
and the write `self.screen[pos] = …` (line 206) indexes out of bounds
when `pos` is not below the buffer length (reachable on a zero-height
screen entered with `y < 0`). -/
def printLoopChars (w h : Nat) (fg bg : Color) (x delta_x : Int) :
    List Char → List Pixel → Nat → Int → Nat → Int → Option (List Pixel)
  | [], buf, _, _, _, _ => some buf
  | chr :: rest, buf, pos, y, origin_row, ignore =>
      if chr = '\n' then
        let y2 := y + 1
        if y2 ≥ (h : Int) then some buf
        else
          printLoopChars w h fg bg x delta_x rest buf
            (coordToIndex w (max 0 x) y2) y2 (origin_row + 1) delta_x
      else if chr = '\r' then
        printLoopChars w h fg bg x delta_x rest buf
          (coordToIndex w (max 0 x) y) y origin_row ignore
      else
        let c := if chr = '\t' then ' ' else chr
        if ignore ≤ 0 then
          if w = 0 then none
          else if origin_row = pos / w then
            if pos < buf.length then
              printLoopChars w h fg bg x delta_x rest
                (buf.set pos (pxl_fbg c fg bg)) (pos + 1) y origin_row ignore
            else none
          else printLoopChars w h fg bg x delta_x rest buf pos y origin_row ignore
        else printLoopChars w h fg bg x delta_x rest buf pos y origin_row (ignore - 1)

/-- `Screen::print_fbg`.  The string is the list of its characters.  The
function is fallible because the source can panic: once past the
`x < width && y < height` guard, `let mut origin_row = pos / self.get_width()`
(src/screen.rs line 178) divides by zero whenever the width is 0 (such a
call passes the guard exactly when `x < 0`), modelled by the `width = 0`
check below; the in-loop division and the `self.screen[pos]` write panic
inside the character loop, modelled by `none` in `printLoopChars`. -/
def Screen.print_fbg (s : Screen) (x y : Int) (cs : List Char)
    (fg bg : Color) : Option Screen :=
  if x < (s.width : Int) ∧ y < (s.height : Int) then
    if s.width = 0 then none
    else
      let cs2 := if y < 0 then cutLines (-y).toNat cs else cs
      let y2 := if y < 0 then 0 else y
      let pos := coordToIndex s.width (max 0 x) y2
      let delta_x : Int := if x < 0 then -x else 0
      match printLoopChars s.width s.height fg bg x delta_x cs2 s.screen
        pos y2 (pos / s.width) delta_x with
      | some buf2 => some { s with screen := buf2 }
      | none => none
  else some s

/-- `Screen::print`. -/
def Screen.print (s : Screen) (x y : Int) (cs : List Char) : Option Screen :=
  s.print_fbg x y cs Color.Reset Color.Reset

/-- Modelled from the spec: the unclipped print referenced by the clipping
property — lay the characters out on the infinite plane from `(x, y)`:
`\n` moves to the next row at column `x`, `\r` returns to column `x`, `\t`
writes a space, every other character is written and advances the column. -/
def unclippedPrintGo (fg bg : Color) (x : Int) :
    List Char → Int → Int → List Write
  | [], _, _ => []
  | chr :: rest, cx, cy =>
      if chr = '\n' then unclippedPrintGo fg bg x rest x (cy + 1)
      else if chr = '\r' then unclippedPrintGo fg bg x rest x cy
      else ((cx, cy), pxl_fbg (if chr = '\t' then ' ' else chr) fg bg) ::
        unclippedPrintGo fg bg x rest (cx + 1) cy

/-- Write trace of the unclipped print from its starting position. -/
def unclippedPrintTrace (x y : Int) (cs : List Char) (fg bg : Color) :
    List Write :=
  unclippedPrintGo fg bg x cs x y

theorem printLoopChars_length (w h : Nat) (fg bg : Color) (x dx : Int)
    (cs : List Char) : ∀ (buf buf2 : List Pixel) (pos : Nat) (y : Int)
    (origin_row : Nat) (ignore : Int),
    printLoopChars w h fg bg x dx cs buf pos y origin_row ignore = some buf2 →
    buf2.length = buf.length := by
  induction cs with
  | nil =>
      intro buf buf2 pos y origin_row ignore hsome
      injection hsome with hsome
      rw [← hsome]
  | cons chr rest ih =>
      intro buf buf2 pos y origin_row ignore hsome
      unfold printLoopChars at hsome
      dsimp only at hsome
      split at hsome
      · split at hsome
        · injection hsome with hsome
          rw [← hsome]
        · exact ih _ _ _ _ _ _ hsome
      · split at hsome
        · exact ih _ _ _ _ _ _ hsome
        · split at hsome
          · split at hsome
            · exact Option.noConfusion hsome
            · split at hsome
              · split at hsome
                · rw [ih _ _ _ _ _ _ hsome, List.length_set]
                · exact Option.noConfusion hsome
              · exact ih _ _ _ _ _ _ hsome
          · exact ih _ _ _ _ _ _ hsome

theorem unclippedPrintGo_row_ge (fg bg : Color) (x : Int) (cs : List Char) :
    ∀ (cx cy : Int) (e : Write), e ∈ unclippedPrintGo fg bg x cs cx cy →
      cy ≤ e.1.2 := by
  induction cs with
  | nil => intro cx cy e he; simp [unclippedPrintGo] at he
  | cons chr rest ih =>
      intro cx cy e he
      unfold unclippedPrintGo at he
      split at he
      · have := ih x (cy + 1) e he
        omega
      · split at he
        · exact ih x cy e he
        · rcases List.mem_cons.mp he with rfl | he2
          · simp
          · exact ih (cx + 1) cy e he2

theorem unclippedPrintGo_col_ge (fg bg : Color) (x : Int) (cs : List Char) :
    ∀ (cx cy : Int), x ≤ cx → ∀ (e : Write),
      e ∈ unclippedPrintGo fg bg x cs cx cy → x ≤ e.1.1 := by
  induction cs with
  | nil => intro cx cy _ e he; simp [unclippedPrintGo] at he
  | cons chr rest ih =>
      intro cx cy hx e he
      unfold unclippedPrintGo at he
      split at he
      · exact ih x (cy + 1) (le_refl x) e he
      · split at he
        · exact ih x cy (le_refl x) e he
        · rcases List.mem_cons.mp he with rfl | he2
          · simpa using hx
          · exact ih (cx + 1) cy (by omega) e he2

theorem unclippedApply_not_mem (f : Int × Int → Pixel) (tr : List Write)
    (c : Int × Int) (h : ∀ e ∈ tr, e.1 ≠ c) :
    unclippedApply f tr c = f c := by
  induction tr generalizing f with
  | nil => rfl
  | cons e t ih =>
      show unclippedApply _ t c = f c
      rw [ih _ (fun e2 he2 => h e2 (List.mem_cons_of_mem e he2))]
      show (if c = e.1 then e.2 else f c) = f c
      rw [if_neg ?_]
      intro hc
      exact h e (List.mem_cons_self e t) (by rw [hc])

theorem dropThroughNewline_mem (cs r : List Char)
    (hd : dropThroughNewline cs = some r) : ∀ c ∈ r, c ∈ cs := by
  induction cs with
  | nil => simp [dropThroughNewline] at hd
  | cons c0 rest ih =>
      unfold dropThroughNewline at hd
      split at hd
      · cases hd
        intro c hc
        exact List.mem_cons_of_mem _ hc
      · intro c hc
        exact List.mem_cons_of_mem _ (ih hd c hc)

theorem cutLines_mem (n : Nat) : ∀ (cs : List Char) (c : Char),
    c ∈ cutLines n cs → c ∈ cs := by
  induction n with
  | zero => intro cs c hc; exact hc
  | succ m ih =>
      intro cs c hc
      unfold cutLines at hc
      split at hc
      · rename_i r hr
        exact dropThroughNewline_mem cs r hr c (ih r c hc)
      · simp at hc

/-- The buffer's content as a function on coordinate pairs (the analogue of
`Screen.cellF` for a raw row-major buffer of width `w`). -/
def bufCell (w : Nat) (buf : List Pixel) : Int × Int → Pixel :=
  fun c => buf.getD (coordToIndex w c.1 c.2) defaultPixel

theorem bufCell_nat (w : Nat) (buf : List Pixel) (i j : Nat) :
    bufCell w buf ((i : Int), (j : Int)) = buf.getD (j * w + i) defaultPixel := by
  unfold bufCell
  rw [coordToIndex_eq _ _ _ (Int.natCast_nonneg i) (Int.natCast_nonneg j),
    Int.toNat_natCast, Int.toNat_natCast]

theorem printLoopChars_cons (w h : Nat) (fg bg : Color) (x dx : Int)
    (chr : Char) (rest : List Char) (buf : List Pixel) (pos : Nat) (y : Int)
    (origin_row : Nat) (ignore : Int) :
    printLoopChars w h fg bg x dx (chr :: rest) buf pos y origin_row ignore =
      (if chr = '\n' then
        (if y + 1 ≥ (h : Int) then some buf
         else printLoopChars w h fg bg x dx rest buf
           (coordToIndex w (max 0 x) (y + 1)) (y + 1) (origin_row + 1) dx)
      else if chr = '\r' then
        printLoopChars w h fg bg x dx rest buf
          (coordToIndex w (max 0 x) y) y origin_row ignore
      else if ignore ≤ 0 then
        (if w = 0 then none
         else if origin_row = pos / w then
          (if pos < buf.length then
            printLoopChars w h fg bg x dx rest
              (buf.set pos (pxl_fbg (if chr = '\t' then ' ' else chr) fg bg))
              (pos + 1) y origin_row ignore
           else none)
         else printLoopChars w h fg bg x dx rest buf pos y origin_row ignore)
      else printLoopChars w h fg bg x dx rest buf pos y origin_row (ignore - 1)) :=
  rfl

theorem unclippedPrintGo_cons (fg bg : Color) (x : Int) (chr : Char)
    (rest : List Char) (cx cy : Int) :
    unclippedPrintGo fg bg x (chr :: rest) cx cy =
      (if chr = '\n' then unclippedPrintGo fg bg x rest x (cy + 1)
      else if chr = '\r' then unclippedPrintGo fg bg x rest x cy
      else ((cx, cy), pxl_fbg (if chr = '\t' then ' ' else chr) fg bg) ::
        unclippedPrintGo fg bg x rest (cx + 1) cy) := rfl

theorem unclippedApply_cons (f : Int × Int → Pixel) (e : Write)
    (t : List Write) (c : Int × Int) :
    unclippedApply f (e :: t) c =
      unclippedApply (fun c2 => if c2 = e.1 then e.2 else f c2) t c := rfl

theorem unclippedApply_go_dropRow (fg bg : Color) (x : Int) (cs : List Char) :
    ∀ (cx cy : Int) (f : Int × Int → Pixel) (c : Int × Int), c.2 ≠ cy →
    unclippedApply f (unclippedPrintGo fg bg x cs cx cy) c =
      (match dropThroughNewline cs with
       | some r => unclippedApply f (unclippedPrintGo fg bg x r x (cy + 1)) c
       | none => f c) := by
  induction cs with
  | nil => intro cx cy f c _; rfl
  | cons chr rest ih =>
      intro cx cy f c hc
      rw [unclippedPrintGo_cons,
        show dropThroughNewline (chr :: rest) =
          (if chr = '\n' then some rest else dropThroughNewline rest) from rfl]
      by_cases h0 : chr = '\n'
      · rw [if_pos h0, if_pos h0]
      · rw [if_neg h0, if_neg h0]
        by_cases h1 : chr = '\r'
        · rw [if_pos h1]
          exact ih x cy f c hc
        · rw [if_neg h1, unclippedApply_cons]
          rw [ih (cx + 1) cy _ c hc]
          have hbase : ∀ (v : Pixel), (fun c2 => if c2 = ((cx, cy) : Int × Int)
              then v else f c2) c = f c := by
            intro v
            show (if c = ((cx, cy) : Int × Int) then v else f c) = f c
            exact if_neg (fun hcc => hc (by rw [hcc]))
          cases hdrop : dropThroughNewline rest with
          | none => exact hbase _
          | some r =>
              exact unclippedApply_congr _ _ _ c (hbase _)

theorem cutLines_sim (fg bg : Color) (x : Int) (n : Nat) :
    ∀ (cs : List Char) (cy : Int) (f : Int × Int → Pixel) (c : Int × Int),
    cy + (n : Int) ≤ c.2 →
    unclippedApply f (unclippedPrintGo fg bg x cs x cy) c =
      unclippedApply f (unclippedPrintGo fg bg x (cutLines n cs) x (cy + (n : Int))) c := by
  induction n with
  | zero =>
      intro cs cy f c _
      simp only [Nat.cast_zero, add_zero]
      rfl
  | succ m ih =>
      intro cs cy f c h
      rw [unclippedApply_go_dropRow fg bg x cs x cy f c (by omega)]
      cases hdrop : dropThroughNewline cs with
      | some r =>
          rw [show cutLines (m + 1) cs = cutLines m r by
              show (match dropThroughNewline cs with
                | some r2 => cutLines m r2
                | none => []) = cutLines m r
              rw [hdrop],
            show cy + ((m + 1 : Nat) : Int) = (cy + 1) + ((m : Nat) : Int) by
              push_cast; ring]
          exact ih r (cy + 1) f c (by omega)
      | none =>
          rw [show cutLines (m + 1) cs = [] by
              show (match dropThroughNewline cs with
                | some r2 => cutLines m r2
                | none => []) = ([] : List Char)
              rw [hdrop]]
          rfl

theorem rowdiv_lt (w y c : Nat) (hw : 0 < w) (hc : c < w) : (y * w + c) / w = y := by
  rw [Nat.mul_comm y w, Nat.mul_add_div hw, Nat.div_eq_of_lt hc, Nat.add_zero]

theorem rowdiv_full (w y : Nat) (hw : 0 < w) : (y * w + w) / w = y + 1 := by
  rw [Nat.mul_comm y w, Nat.mul_add_div hw, Nat.div_self hw]

theorem pos_form (w : Nat) (hw : 1 ≤ w) (x yv : Int) (hx : x < (w : Int))
    (hy : 0 ≤ yv) :
    coordToIndex w (max 0 x) yv = yv.toNat * w + min (max 0 x).toNat w := by
  rw [coordToIndex_eq w (max 0 x) yv (le_max_left 0 x) hy]
  congr 1
  omega

/-- The character loop of `Screen::print_fbg` never panics when the width
is positive and the row stays inside a screen of positive height (the write
guard `origin_row == pos / width` itself bounds `pos` by the buffer length
on those rows), and it preserves the buffer length. -/
theorem printLoop_no_panic (w h : Nat) (hw : 1 ≤ w) (fg bg : Color)
    (x dx : Int) (cs : List Char) :
    ∀ (buf : List Pixel) (pos : Nat) (y : Int) (ignore : Int),
    buf.length = w * h → 0 ≤ y → y < (h : Int) →
    ∃ buf2 : List Pixel,
      printLoopChars w h fg bg x dx cs buf pos y y.toNat ignore = some buf2 ∧
      buf2.length = w * h := by
  induction cs with
  | nil =>
      intro buf pos y ignore hlen _ _
      exact ⟨buf, rfl, hlen⟩
  | cons chr rest ih =>
      intro buf pos y ignore hlen hy hyh
      rw [printLoopChars_cons]
      by_cases h0 : chr = '\n'
      · rw [if_pos h0]
        by_cases hbig : y + 1 ≥ (h : Int)
        · rw [if_pos hbig]
          exact ⟨buf, rfl, hlen⟩
        · rw [if_neg hbig, show y.toNat + 1 = (y + 1).toNat by omega]
          exact ih buf _ (y + 1) dx hlen (by omega) (by omega)
      · rw [if_neg h0]
        by_cases h1 : chr = '\r'
        · rw [if_pos h1]
          exact ih buf _ y ignore hlen hy hyh
        · rw [if_neg h1]
          by_cases hig : ignore ≤ 0
          · rw [if_pos hig, if_neg (show ¬(w = 0) by omega)]
            by_cases hguard : y.toNat = pos / w
            · rw [if_pos hguard]
              have hposlt : pos < buf.length := by
                have hdm := Nat.div_add_mod pos w
                have hmod : pos % w < w := Nat.mod_lt pos (by omega)
                calc pos = w * (pos / w) + pos % w := hdm.symm
                  _ = w * y.toNat + pos % w := by rw [← hguard]
                  _ < w * y.toNat + w := by omega
                  _ = w * (y.toNat + 1) := by ring
                  _ ≤ w * h := Nat.mul_le_mul_left w (by omega)
                  _ = buf.length := hlen.symm
              rw [if_pos hposlt]
              exact ih (buf.set pos (pxl_fbg (if chr = '\t' then ' ' else chr)
                  fg bg)) (pos + 1) y ignore
                (by rw [List.length_set]; exact hlen) hy hyh
            · rw [if_neg hguard]
              exact ih buf pos y ignore hlen hy hyh
          · rw [if_neg hig]
            exact ih buf pos y (ignore - 1) hlen hy hyh

/-- Simulation of the character loop of `Screen::print_fbg` against the
unclipped layout, under the loop invariant `pos = y*w + min (max 0 cx) w`,
`origin_row = y`, `ignore = max (-cx) 0`, provided the start column is
strictly left of the width and either nonnegative or the string is free of
carriage returns. -/
theorem printLoop_sim (w h : Nat) (hw : 1 ≤ w) (fg bg : Color) (x : Int)
    (hxw : x < (w : Int)) (cs : List Char) :
    ∀ (buf buf2 : List Pixel) (y cx : Int),
    buf.length = w * h → 0 ≤ y → y < (h : Int) → x ≤ cx →
    (0 ≤ x ∨ '\r' ∉ cs) →
    printLoopChars w h fg bg x (if x < 0 then -x else 0) cs buf
        (y.toNat * w + min (max 0 cx).toNat w) y y.toNat
        (if cx < 0 then -cx else 0) = some buf2 →
    ∀ (i j : Nat), i < w → j < h →
    buf2.getD (j * w + i) defaultPixel =
      unclippedApply (bufCell w buf) (unclippedPrintGo fg bg x cs cx y)
        ((i : Int), (j : Int)) := by
  induction cs with
  | nil =>
      intro buf buf2 y cx _ _ _ _ _ hsome i j _ _
      injection hsome with hsome
      rw [← hsome]
      exact (bufCell_nat w buf i j).symm
  | cons chr rest ih =>
      intro buf buf2 y cx hlen hy hyh hxcx hnr hsome i j hi hj
      have hnr2 : 0 ≤ x ∨ '\r' ∉ rest := by
        rcases hnr with hx0 | hmem
        · exact Or.inl hx0
        · exact Or.inr (fun hm => hmem (List.mem_cons_of_mem _ hm))
      rw [printLoopChars_cons] at hsome
      rw [unclippedPrintGo_cons]
      by_cases h0 : chr = '\n'
      · rw [if_pos h0] at hsome
        rw [if_pos h0]
        by_cases hbig : y + 1 ≥ (h : Int)
        · rw [if_pos hbig] at hsome
          injection hsome with hsome
          rw [← hsome]
          have hnm : ∀ e ∈ unclippedPrintGo fg bg x rest x (y + 1),
              e.1 ≠ (((i : Int), (j : Int)) : Int × Int) := by
            intro e he hec
            have hrow := unclippedPrintGo_row_ge fg bg x rest x (y + 1) e he
            rw [hec] at hrow
            have hrow2 : y + 1 ≤ (j : Int) := hrow
            omega
          rw [unclippedApply_not_mem _ _ _ hnm]
          exact (bufCell_nat w buf i j).symm
        · rw [if_neg hbig,
            pos_form w hw x (y + 1) hxw (by omega),
            show y.toNat + 1 = (y + 1).toNat by omega] at hsome
          exact ih buf buf2 (y + 1) x hlen (by omega) (by omega) le_rfl hnr2
            hsome i j hi hj
      · rw [if_neg h0] at hsome
        rw [if_neg h0]
        by_cases h1 : chr = '\r'
        · rw [if_pos h1] at hsome
          rw [if_pos h1]
          have hx0 : 0 ≤ x := by
            rcases hnr with hx0 | hmem
            · exact hx0
            · exact absurd (by rw [← h1]; exact List.mem_cons_self chr rest) hmem
          rw [pos_form w hw x y hxw hy,
            show (if cx < 0 then -cx else 0) = (if x < 0 then -x else 0) by
              rw [if_neg (by omega), if_neg (by omega)]] at hsome
          exact ih buf buf2 y x hlen hy hyh le_rfl (Or.inl hx0) hsome i j hi hj
        · rw [if_neg h1] at hsome
          rw [if_neg h1]
          by_cases hcxneg : cx < 0
          · have hig : ¬((if cx < 0 then -cx else 0) ≤ 0) := by
              rw [if_pos hcxneg]; omega
            rw [if_neg hig,
              show (if cx < 0 then -cx else 0) - 1 =
                  (if cx + 1 < 0 then -(cx + 1) else 0) by
                rw [if_pos hcxneg]
                by_cases hc1 : cx + 1 < 0
                · rw [if_pos hc1]; ring
                · rw [if_neg hc1]; omega,
              show min (max 0 cx).toNat w = min (max 0 (cx + 1)).toNat w
                by omega] at hsome
            have hrec := ih buf buf2 y (cx + 1) hlen hy hyh (by omega) hnr2
              hsome i j hi hj
            rw [unclippedApply_cons, hrec]
            have hne : (((i : Int), (j : Int)) : Int × Int) ≠ (cx, y) := by
              intro hec
              have h2 : (i : Int) = cx := congrArg Prod.fst hec
              omega
            exact unclippedApply_congr _ _ _ _ ((if_neg hne).symm)
          · have hig : (if cx < 0 then -cx else 0) ≤ 0 := by
              rw [if_neg hcxneg]
            rw [if_pos hig, if_neg (show ¬(w = 0) by omega)] at hsome
            by_cases hcw : cx < (w : Int)
            · rw [show min (max 0 cx).toNat w = cx.toNat by omega,
                if_pos (rowdiv_lt w y.toNat cx.toNat (by omega) (by omega)).symm,
                if_pos (show y.toNat * w + cx.toNat < buf.length by
                  rw [hlen]; exact natIdx_lt (by omega) (by omega)),
                show y.toNat * w + cx.toNat + 1 =
                  y.toNat * w + min (max 0 (cx + 1)).toNat w by omega,
                show (if cx < 0 then -cx else 0) =
                    (if cx + 1 < 0 then -(cx + 1) else 0) by
                  rw [if_neg hcxneg, if_neg (by omega)]] at hsome
              have hrec := ih (buf.set (y.toNat * w + cx.toNat)
                  (pxl_fbg (if chr = '\t' then ' ' else chr) fg bg)) buf2 y
                  (cx + 1) (by rw [List.length_set]; exact hlen) hy hyh
                  (by omega) hnr2 hsome i j hi hj
              rw [unclippedApply_cons, hrec]
              have hpoint : bufCell w (buf.set (y.toNat * w + cx.toNat)
                  (pxl_fbg (if chr = '\t' then ' ' else chr) fg bg))
                    ((i : Int), (j : Int)) =
                  (if (((i : Int), (j : Int)) : Int × Int) = (cx, y) then
                    pxl_fbg (if chr = '\t' then ' ' else chr) fg bg
                   else bufCell w buf ((i : Int), (j : Int))) := by
                rw [bufCell_nat, bufCell_nat]
                by_cases hec : (((i : Int), (j : Int)) : Int × Int) = (cx, y)
                · rw [if_pos hec]
                  have he1 : (i : Int) = cx := congrArg Prod.fst hec
                  have he2 : (j : Int) = y := congrArg Prod.snd hec
                  have he3 : i = cx.toNat := by omega
                  have he4 : j = y.toNat := by omega
                  rw [he3, he4]
                  exact getD_set_self _ _ _ _
                    (by rw [hlen]; exact natIdx_lt (by omega) (by omega))
                · rw [if_neg hec]
                  apply getD_set_ne
                  intro he
                  rcases natIdx_inj (show cx.toNat < w by omega) hi he with ⟨he1, he2⟩
                  apply hec
                  have he3 : (i : Int) = cx := by omega
                  have he4 : (j : Int) = y := by omega
                  rw [he3, he4]
              exact unclippedApply_congr _ _ _ _ hpoint
            · rw [if_neg (show ¬(y.toNat =
                    (y.toNat * w + min (max 0 cx).toNat w) / w) by
                  rw [show min (max 0 cx).toNat w = w by omega,
                    rowdiv_full w y.toNat (by omega)]
                  omega),
                show min (max 0 cx).toNat w = min (max 0 (cx + 1)).toNat w by omega,
                show (if cx < 0 then -cx else 0) =
                    (if cx + 1 < 0 then -(cx + 1) else 0) by
                  rw [if_neg hcxneg, if_neg (by omega)]] at hsome
              have hrec := ih buf buf2 y (cx + 1) hlen hy hyh (by omega) hnr2
                hsome i j hi hj
              rw [unclippedApply_cons, hrec]
              have hne : (((i : Int), (j : Int)) : Int × Int) ≠ (cx, y) := by
                intro hec
                have h2 : (i : Int) = cx := congrArg Prod.fst hec
                omega
              exact unclippedApply_congr _ _ _ _ ((if_neg hne).symm)

/-- `Screen::print_fbg` on a screen with positive width and height never
panics (returns `some`), preserves the dimensions and buffer length, and —
provided the start column is nonnegative or the string contains no carriage
return (the `\r` handling forgets the left clip, see the counterexample) —
its in-bounds cells are exactly the restriction of the unclipped print. -/
theorem print_fbg_clips (s : Screen) (hwf : s.wf) (hw1 : 1 ≤ s.width)
    (hh1 : 1 ≤ s.height) (x y : Int) (cs : List Char) (fg bg : Color) :
    ∃ s2 : Screen, s.print_fbg x y cs fg bg = some s2 ∧
      s2.width = s.width ∧ s2.height = s.height ∧
      s2.screen.length = s.screen.length ∧
      ((0 ≤ x ∨ '\r' ∉ cs) → ∀ xi yi : Int, s.inB xi yi →
        s2.cell xi yi = unclippedApply s.cellF
          (unclippedPrintTrace x y cs fg bg) (xi, yi)) := by
  have hslen : s.screen.length = s.width * s.height := hwf
  unfold Screen.print_fbg
  by_cases hguard : x < (s.width : Int) ∧ y < (s.height : Int)
  · rw [if_pos hguard, if_neg (show ¬(s.width = 0) by omega)]
    dsimp only
    by_cases hyneg : y < 0
    · simp only [if_pos hyneg]
      rw [pos_form s.width hw1 x 0 hguard.1 le_rfl,
        show ((0 : Int).toNat * s.width + min (max 0 x).toNat s.width) /
            s.width = (0 : Int).toNat from
          rowdiv_lt _ _ _ (by omega) (by omega)]
      obtain ⟨buf2, hsome, hlen2⟩ := printLoop_no_panic s.width s.height hw1
        fg bg x (if x < 0 then -x else 0) (cutLines (-y).toNat cs) s.screen
        ((0 : Int).toNat * s.width + min (max 0 x).toNat s.width) 0
        (if x < 0 then -x else 0) hslen le_rfl (by omega)
      rw [hsome]
      refine ⟨_, rfl, rfl, rfl, hlen2.trans hslen.symm, ?_⟩
      intro hnr xi yi hin
      obtain ⟨hx0, hxw, hy0, hyh⟩ := hin
      have hxi : xi.toNat < s.width := by omega
      have hyi : yi.toNat < s.height := by omega
      have hnr3 : 0 ≤ x ∨ '\r' ∉ cutLines (-y).toNat cs := by
        rcases hnr with h2 | h2
        · exact Or.inl h2
        · exact Or.inr (fun hm => h2 (cutLines_mem _ _ _ hm))
      have hcell2 : ({ s with screen := buf2 } : Screen).cell xi yi =
          buf2.getD (yi.toNat * s.width + xi.toNat) defaultPixel := by
        show buf2.getD (coordToIndex s.width xi yi) defaultPixel = _
        rw [coordToIndex_eq s.width xi yi hx0 hy0]
      have hpair : (((xi.toNat : Nat) : Int), ((yi.toNat : Nat) : Int)) =
          ((xi, yi) : Int × Int) := by
        rw [Int.toNat_of_nonneg hx0, Int.toNat_of_nonneg hy0]
      have hbc : bufCell s.width s.screen = s.cellF := rfl
      rw [hcell2,
        printLoop_sim s.width s.height hw1 fg bg x hguard.1
          (cutLines (-y).toNat cs) s.screen buf2 0 x hslen le_rfl (by omega)
          le_rfl hnr3 hsome xi.toNat yi.toNat hxi hyi,
        hpair, hbc]
      have hcut := cutLines_sim fg bg x (-y).toNat cs y s.cellF
        ((xi, yi) : Int × Int) (by show y + (((-y).toNat : Nat) : Int) ≤ yi; omega)
      rw [show y + (((-y).toNat : Nat) : Int) = 0 by omega] at hcut
      exact hcut.symm
    · simp only [if_neg hyneg]
      rw [pos_form s.width hw1 x y hguard.1 (by omega),
        show (y.toNat * s.width + min (max 0 x).toNat s.width) /
            s.width = y.toNat from
          rowdiv_lt _ _ _ (by omega) (by omega)]
      obtain ⟨buf2, hsome, hlen2⟩ := printLoop_no_panic s.width s.height hw1
        fg bg x (if x < 0 then -x else 0) cs s.screen
        (y.toNat * s.width + min (max 0 x).toNat s.width) y
        (if x < 0 then -x else 0) hslen (by omega) hguard.2
      rw [hsome]
      refine ⟨_, rfl, rfl, rfl, hlen2.trans hslen.symm, ?_⟩
      intro hnr xi yi hin
      obtain ⟨hx0, hxw, hy0, hyh⟩ := hin
      have hxi : xi.toNat < s.width := by omega
      have hyi : yi.toNat < s.height := by omega
      have hcell2 : ({ s with screen := buf2 } : Screen).cell xi yi =
          buf2.getD (yi.toNat * s.width + xi.toNat) defaultPixel := by
        show buf2.getD (coordToIndex s.width xi yi) defaultPixel = _
        rw [coordToIndex_eq s.width xi yi hx0 hy0]
      have hpair : (((xi.toNat : Nat) : Int), ((yi.toNat : Nat) : Int)) =
          ((xi, yi) : Int × Int) := by
        rw [Int.toNat_of_nonneg hx0, Int.toNat_of_nonneg hy0]
      have hbc : bufCell s.width s.screen = s.cellF := rfl
      rw [hcell2,
        printLoop_sim s.width s.height hw1 fg bg x hguard.1
          cs s.screen buf2 y x hslen (by omega) hguard.2
          le_rfl hnr hsome xi.toNat yi.toNat hxi hyi,
        hpair, hbc]
      rfl
  · rw [if_neg hguard]
    refine ⟨s, rfl, rfl, rfl, rfl, ?_⟩
    intro hnr xi yi hin
    obtain ⟨hx0, hxw, hy0, hyh⟩ := hin
    have hnm : ∀ e ∈ unclippedPrintGo fg bg x cs x y,
        e.1 ≠ ((xi, yi) : Int × Int) := by
      intro e he hec
      have hcol := unclippedPrintGo_col_ge fg bg x cs x y le_rfl e he
      have hrow := unclippedPrintGo_row_ge fg bg x cs x y e he
      rw [hec] at hcol hrow
      have h2 : x ≤ xi := hcol
      have h3 : y ≤ yi := hrow
      omega
    rw [show unclippedPrintTrace x y cs fg bg =
        unclippedPrintGo fg bg x cs x y from rfl,
      unclippedApply_not_mem _ _ _ hnm]
    rfl

theorem mem_rasterRowGo (p : Pixel) (a12 a20 a01 y A B C : Int) :
    ∀ (n : Nat) (x : Int) (e : Write),
    (e ∈ rasterRowGo p a12 a20 a01 y n x
        (A + x * a12) (B + x * a20) (C + x * a01) ↔
      ∃ xc : Int, x ≤ xc ∧ xc < x + (n : Int) ∧ e = ((xc, y), p) ∧
        0 ≤ A + xc * a12 ∧ 0 ≤ B + xc * a20 ∧ 0 ≤ C + xc * a01) := by
  intro n
  induction n with
  | zero =>
      intro x e
      show e ∈ ([] : List Write) ↔ _
      simp only [List.not_mem_nil, false_iff]
      rintro ⟨xc, h1, h2, _⟩
      simp only [Nat.cast_zero, add_zero] at h2
      omega
  | succ n ih =>
      intro x e
      show e ∈ (if 0 ≤ A + x * a12 ∧ 0 ≤ B + x * a20 ∧ 0 ≤ C + x * a01
          then [((x, y), p)] else []) ++
        rasterRowGo p a12 a20 a01 y n (x + 1) (A + x * a12 + a12)
          (B + x * a20 + a20) (C + x * a01 + a01) ↔ _
      rw [List.mem_append,
        show A + x * a12 + a12 = A + (x + 1) * a12 by ring,
        show B + x * a20 + a20 = B + (x + 1) * a20 by ring,
        show C + x * a01 + a01 = C + (x + 1) * a01 by ring,
        ih (x + 1) e]
      constructor
      · rintro (hhead | ⟨xc, h1, h2, rfl, h4, h5, h6⟩)
        · by_cases hcond : 0 ≤ A + x * a12 ∧ 0 ≤ B + x * a20 ∧ 0 ≤ C + x * a01
          · rw [if_pos hcond, List.mem_singleton] at hhead
            exact ⟨x, le_rfl, by omega, hhead, hcond.1, hcond.2.1, hcond.2.2⟩
          · rw [if_neg hcond] at hhead
            exact absurd hhead (List.not_mem_nil e)
        · exact ⟨xc, by omega, by omega, rfl, h4, h5, h6⟩
      · rintro ⟨xc, h1, h2, rfl, h4, h5, h6⟩
        by_cases hxc : xc = x
        · left
          rw [hxc] at h4 h5 h6
          rw [if_pos ⟨h4, h5, h6⟩, List.mem_singleton, hxc]
        · right
          exact ⟨xc, by omega, by omega, rfl, h4, h5, h6⟩

theorem mem_rasterGo (p : Pixel) (a12 a20 a01 b12 b20 b01 minx maxx A B C : Int) :
    ∀ (n : Nat) (y : Int) (e : Write),
    (e ∈ rasterGo p a12 a20 a01 b12 b20 b01 minx maxx n y
        (A + minx * a12 + y * b12) (B + minx * a20 + y * b20)
        (C + minx * a01 + y * b01) ↔
      ∃ xc yc : Int, minx ≤ xc ∧ xc < maxx ∧ y ≤ yc ∧ yc < y + (n : Int) ∧
        e = ((xc, yc), p) ∧
        0 ≤ A + xc * a12 + yc * b12 ∧ 0 ≤ B + xc * a20 + yc * b20 ∧
        0 ≤ C + xc * a01 + yc * b01) := by
  intro n
  induction n with
  | zero =>
      intro y e
      show e ∈ ([] : List Write) ↔ _
      simp only [List.not_mem_nil, false_iff]
      rintro ⟨xc, yc, _, _, h3, h4, _⟩
      simp only [Nat.cast_zero, add_zero] at h4
      omega
  | succ n ih =>
      intro y e
      show e ∈ rasterRowGo p a12 a20 a01 y (maxx - minx).toNat minx
          (A + minx * a12 + y * b12) (B + minx * a20 + y * b20)
          (C + minx * a01 + y * b01) ++
        rasterGo p a12 a20 a01 b12 b20 b01 minx maxx n (y + 1)
          (A + minx * a12 + y * b12 + b12) (B + minx * a20 + y * b20 + b20)
          (C + minx * a01 + y * b01 + b01) ↔ _
      rw [List.mem_append,
        show A + minx * a12 + y * b12 = (A + y * b12) + minx * a12 by ring,
        show B + minx * a20 + y * b20 = (B + y * b20) + minx * a20 by ring,
        show C + minx * a01 + y * b01 = (C + y * b01) + minx * a01 by ring,
        mem_rasterRowGo p a12 a20 a01 y (A + y * b12) (B + y * b20)
          (C + y * b01) (maxx - minx).toNat minx e,
        show (A + y * b12) + minx * a12 + b12 = A + minx * a12 + (y + 1) * b12 by ring,
        show (B + y * b20) + minx * a20 + b20 = B + minx * a20 + (y + 1) * b20 by ring,
        show (C + y * b01) + minx * a01 + b01 = C + minx * a01 + (y + 1) * b01 by ring,
        ih (y + 1) e]
      constructor
      · rintro (⟨xc, h1, h2, rfl, h4, h5, h6⟩ | ⟨xc, yc, h1, h2, h3, h4, rfl, h6, h7, h8⟩)
        · refine ⟨xc, y, h1, by omega, le_rfl, by omega, rfl, ?_, ?_, ?_⟩
          · calc (0 : Int) ≤ (A + y * b12) + xc * a12 := h4
              _ = A + xc * a12 + y * b12 := by ring
          · calc (0 : Int) ≤ (B + y * b20) + xc * a20 := h5
              _ = B + xc * a20 + y * b20 := by ring
          · calc (0 : Int) ≤ (C + y * b01) + xc * a01 := h6
              _ = C + xc * a01 + y * b01 := by ring
        · exact ⟨xc, yc, h1, h2, by omega, by omega,
            rfl, h6, h7, h8⟩
      · rintro ⟨xc, yc, h1, h2, h3, h4, rfl, h6, h7, h8⟩
        by_cases hyc : yc = y
        · left
          refine ⟨xc, h1, by omega, by rw [hyc], ?_, ?_, ?_⟩
          · calc (0 : Int) ≤ A + xc * a12 + yc * b12 := h6
              _ = (A + y * b12) + xc * a12 := by rw [hyc]; ring
          · calc (0 : Int) ≤ B + xc * a20 + yc * b20 := h7
              _ = (B + y * b20) + xc * a20 := by rw [hyc]; ring
          · calc (0 : Int) ≤ C + xc * a01 + yc * b01 := h8
              _ = (C + y * b01) + xc * a01 := by rw [hyc]; ring
        · right
          exact ⟨xc, yc, h1, h2, by omega, by omega,
            rfl, h6, h7, h8⟩

theorem mem_fillTriRaster (v0 v1 v2 : Int × Int) (minx maxx miny maxy : Int)
    (p : Pixel) (e : Write) :
    e ∈ fillTriRaster v0 v1 v2 minx maxx miny maxy p ↔
      ∃ xc yc : Int, minx ≤ xc ∧ xc < maxx ∧ miny ≤ yc ∧ yc < maxy ∧
        e = ((xc, yc), p) ∧
        0 ≤ orient2d v1 v2 (xc, yc) + biasOf v1 v2 ∧
        0 ≤ orient2d v2 v0 (xc, yc) + biasOf v2 v0 ∧
        0 ≤ orient2d v0 v1 (xc, yc) + biasOf v0 v1 := by
  unfold fillTriRaster
  dsimp only
  rw [show orient2d v1 v2 (minx, miny) + biasOf v1 v2 =
      (orient2d v1 v2 (0, 0) + biasOf v1 v2) + minx * (v1.2 - v2.2) +
        miny * (v2.1 - v1.1) by unfold orient2d; ring,
    show orient2d v2 v0 (minx, miny) + biasOf v2 v0 =
      (orient2d v2 v0 (0, 0) + biasOf v2 v0) + minx * (v2.2 - v0.2) +
        miny * (v0.1 - v2.1) by unfold orient2d; ring,
    show orient2d v0 v1 (minx, miny) + biasOf v0 v1 =
      (orient2d v0 v1 (0, 0) + biasOf v0 v1) + minx * (v0.2 - v1.2) +
        miny * (v1.1 - v0.1) by unfold orient2d; ring,
    mem_rasterGo p (v1.2 - v2.2) (v2.2 - v0.2) (v0.2 - v1.2) (v2.1 - v1.1)
      (v0.1 - v2.1) (v1.1 - v0.1) minx maxx
      (orient2d v1 v2 (0, 0) + biasOf v1 v2)
      (orient2d v2 v0 (0, 0) + biasOf v2 v0)
      (orient2d v0 v1 (0, 0) + biasOf v0 v1) (maxy - miny).toNat miny e]
  constructor
  · rintro ⟨xc, yc, h1, h2, h3, h4, rfl, h6, h7, h8⟩
    refine ⟨xc, yc, h1, h2, h3, by omega, rfl, ?_, ?_, ?_⟩
    · calc (0 : Int) ≤ (orient2d v1 v2 (0, 0) + biasOf v1 v2) +
            xc * (v1.2 - v2.2) + yc * (v2.1 - v1.1) := h6
        _ = orient2d v1 v2 (xc, yc) + biasOf v1 v2 := by unfold orient2d; ring
    · calc (0 : Int) ≤ (orient2d v2 v0 (0, 0) + biasOf v2 v0) +
            xc * (v2.2 - v0.2) + yc * (v0.1 - v2.1) := h7
        _ = orient2d v2 v0 (xc, yc) + biasOf v2 v0 := by unfold orient2d; ring
    · calc (0 : Int) ≤ (orient2d v0 v1 (0, 0) + biasOf v0 v1) +
            xc * (v0.2 - v1.2) + yc * (v1.1 - v0.1) := h8
        _ = orient2d v0 v1 (xc, yc) + biasOf v0 v1 := by unfold orient2d; ring
  · rintro ⟨xc, yc, h1, h2, h3, h4, rfl, h6, h7, h8⟩
    refine ⟨xc, yc, h1, h2, h3, by omega, rfl, ?_, ?_, ?_⟩
    · calc (0 : Int) ≤ orient2d v1 v2 (xc, yc) + biasOf v1 v2 := h6
        _ = (orient2d v1 v2 (0, 0) + biasOf v1 v2) +
            xc * (v1.2 - v2.2) + yc * (v2.1 - v1.1) := by unfold orient2d; ring
    · calc (0 : Int) ≤ orient2d v2 v0 (xc, yc) + biasOf v2 v0 := h7
        _ = (orient2d v2 v0 (0, 0) + biasOf v2 v0) +
            xc * (v2.2 - v0.2) + yc * (v0.1 - v2.1) := by unfold orient2d; ring
    · calc (0 : Int) ≤ orient2d v0 v1 (xc, yc) + biasOf v0 v1 := h8
        _ = (orient2d v0 v1 (0, 0) + biasOf v0 v1) +
            xc * (v0.2 - v1.2) + yc * (v1.1 - v0.1) := by unfold orient2d; ring

/-- Every write of the clamped-box `fill_triangle` raster also occurs in the
unclipped raster: the clamp only shrinks the bounding box, and the edge
tests agree at equal absolute coordinates. -/
theorem fillTriangleTrace_subset (w h : Nat) (x1 y1 x2 y2 x3 y3 : Int)
    (p : Pixel) (e : Write)
    (he : e ∈ fillTriangleTrace w h x1 y1 x2 y2 x3 y3 p) :
    e ∈ fillTriangleTraceU x1 y1 x2 y2 x3 y3 p := by
  unfold fillTriangleTrace at he
  unfold fillTriangleTraceU
  rw [List.mem_append] at he ⊢
  rcases he with he | he
  · exact Or.inl he
  · right
    dsimp only at he ⊢
    rw [mem_fillTriRaster] at he
    rw [mem_fillTriRaster]
    obtain ⟨xc, yc, h1, h2, h3, h4, rfl, h6, h7, h8⟩ := he
    exact ⟨xc, yc, by omega, by omega, by omega, by omega, rfl, h6, h7, h8⟩

/-- The property asserted by claim C5, amended.  Every drawing primitive
preserves width, height and buffer length and only ever changes in-bounds
cells (`Clips` states all of this together with the cell contract).  The
in-bounds cells are exactly the restriction of the unclipped draw for
`set_pxl`, `h_line`, `v_line`, `line`, `rect`, `rect_border`, `fill_rect`,
`circle`, `fill_circle`, `triangle` and `print_screen`.  `print`/`print_fbg`
are fallible (the source panics on zero-width screens entered with a
negative column — division by zero — and can panic on zero-height screens
entered with a negative row — out-of-bounds write); on screens with
positive width and height they complete (`some`), preserve the dimensions
and length, and satisfy the exact restriction when the start column is
nonnegative or the string has no carriage return.  For `fill_triangle` the
exact-restriction part is weakened to trace inclusion: every write of the
clamped raster also occurs in the unclipped draw. -/
abbrev C5Prop (s : Screen) : Prop :=
  (∀ x y p, Clips (fun t => t.set_pxl x y p) [((x, y), p)] s) ∧
  (∀ x0 y0 x1 p, Clips (fun t => t.h_line x0 y0 x1 p) (hLineTrace x0 y0 x1 p) s) ∧
  (∀ x0 y0 y1 p, Clips (fun t => t.v_line x0 y0 y1 p) (vLineTrace x0 y0 y1 p) s) ∧
  (∀ x0 y0 x1 y1 p,
    Clips (fun t => t.line x0 y0 x1 y1 p) (lineTrace x0 y0 x1 y1 p) s) ∧
  (∀ x0 y0 x1 y1 p,
    Clips (fun t => t.rect x0 y0 x1 y1 p) (rectTrace x0 y0 x1 y1 p) s) ∧
  (∀ x0 y0 x1 y1 st,
    Clips (fun t => t.rect_border x0 y0 x1 y1 st)
      (rectBorderTrace x0 y0 x1 y1 st) s) ∧
  (∀ x0 y0 x1 y1 p,
    Clips (fun t => t.fill_rect x0 y0 x1 y1 p)
      (fillRectTrace x0 y0 x1 y1 p) s) ∧
  (∀ x y r p, Clips (fun t => t.circle x y r p) (circleTrace x y r p) s) ∧
  (∀ x y r p,
    Clips (fun t => t.fill_circle x y r p) (fillCircleTrace x y r p) s) ∧
  (∀ x1 y1 x2 y2 x3 y3 p,
    Clips (fun t => t.triangle x1 y1 x2 y2 x3 y3 p)
      (triangleTrace x1 y1 x2 y2 x3 y3 p) s) ∧
  (∀ x y src,
    Clips (fun t => t.print_screen x y src) (printScreenTrace x y src) s) ∧
  (∀ x y cs fg bg, 1 ≤ s.width → 1 ≤ s.height →
    ∃ s2 : Screen, s.print_fbg x y cs fg bg = some s2 ∧
      s2.width = s.width ∧ s2.height = s.height ∧
      s2.screen.length = s.screen.length ∧
      ((0 ≤ x ∨ '\r' ∉ cs) → ∀ xi yi : Int, s.inB xi yi →
        s2.cell xi yi = unclippedApply s.cellF
          (unclippedPrintTrace x y cs fg bg) (xi, yi))) ∧
  (∀ x y cs, 1 ≤ s.width → 1 ≤ s.height →
    ∃ s2 : Screen, s.print x y cs = some s2 ∧
      s2.width = s.width ∧ s2.height = s.height ∧
      s2.screen.length = s.screen.length ∧
      ((0 ≤ x ∨ '\r' ∉ cs) → ∀ xi yi : Int, s.inB xi yi →
        s2.cell xi yi = unclippedApply s.cellF
          (unclippedPrintTrace x y cs Color.Reset Color.Reset) (xi, yi))) ∧
  (∀ x1 y1 x2 y2 x3 y3 p,
    (s.fill_triangle x1 y1 x2 y2 x3 y3 p).width = s.width ∧
    (s.fill_triangle x1 y1 x2 y2 x3 y3 p).height = s.height ∧
    (s.fill_triangle x1 y1 x2 y2 x3 y3 p).screen.length = s.screen.length ∧
    ∀ e ∈ fillTriangleTrace s.width s.height x1 y1 x2 y2 x3 y3 p,
      e ∈ fillTriangleTraceU x1 y1 x2 y2 x3 y3 p)

/-- C5: clipping safety of the drawing primitives (amended).  On every
well-formed screen, each primitive never writes out of bounds, keeps the
dimensions and buffer length, and its in-bounds cells equal the in-bounds
restriction of the corresponding unclipped draw — exactly for all
primitives except `print`/`print_fbg` (fallible: the source can divide by
zero or index out of bounds on zero-width/zero-height screens, see the
counterexample; on positive dimensions it completes and needs a
nonnegative start column or a string without `\r` for the exact
restriction, see the counterexample) and `fill_triangle` (whose clamped
bounding box drops in-bounds pixels of the unclipped draw, see the
counterexample; its writes are still a subset of the unclipped ones). -/
theorem c5_clipping_safety (s : Screen) (hwf : s.wf) : C5Prop s := by
  refine ⟨?_, ?_, ?_, ?_, ?_, ?_, ?_, ?_, ?_, ?_, ?_, ?_, ?_, ?_⟩
  · intro x y p
    exact drawTrace_clips [((x, y), p)] s hwf
  · intro x0 y0 x1 p
    exact drawTrace_clips _ s hwf
  · intro x0 y0 y1 p
    exact drawTrace_clips _ s hwf
  · intro x0 y0 x1 y1 p
    exact drawTrace_clips _ s hwf
  · intro x0 y0 x1 y1 p
    exact drawTrace_clips _ s hwf
  · intro x0 y0 x1 y1 st
    exact drawTrace_clips _ s hwf
  · intro x0 y0 x1 y1 p
    exact drawTrace_clips _ s hwf
  · intro x y r p
    exact drawTrace_clips _ s hwf
  · intro x y r p
    exact drawTrace_clips _ s hwf
  · intro x1 y1 x2 y2 x3 y3 p
    exact drawTrace_clips _ s hwf
  · intro x y src
    exact drawTrace_clips _ s hwf
  · intro x y cs fg bg hw1 hh1
    exact print_fbg_clips s hwf hw1 hh1 x y cs fg bg
  · intro x y cs hw1 hh1
    exact print_fbg_clips s hwf hw1 hh1 x y cs Color.Reset Color.Reset
  · intro x1 y1 x2 y2 x3 y3 p
    refine ⟨drawTrace_width _ _, drawTrace_height _ _, drawTrace_length _ _, ?_⟩
    intro e he
    exact fillTriangleTrace_subset s.width s.height x1 y1 x2 y2 x3 y3 p e he

/-- Witness for C5 on a concrete well-formed screen. -/
theorem c5_clipping_safety_witness :
    (Screen.new 2 2).wf ∧ C5Prop (Screen.new 2 2) :=
  ⟨by decide, c5_clipping_safety (Screen.new 2 2) (by decide)⟩

set_option maxRecDepth 40000 in
/-- Counterexample to C5 as stated: (1) `fill_triangle` clamps its bounding
box to the screen and then iterates it exclusively, so on a 3x3 screen the
triangle (0,0)-(5,0)-(0,5) misses the in-bounds pixel (2,2) that the
unclipped draw covers; (2) `print_fbg` with a negative start column does
not re-apply the left clip after a carriage return, so printing "ab\rcd"
at (-1,0) completes with 'c' at cell (0,0) where the unclipped draw
restricted to the screen puts 'd'; (3) the never-panics part fails:
`print_fbg` on a width-0 screen entered with a negative column divides by
zero (src/screen.rs line 178), and on a 3x0 screen entered from row -1
with the string "\na" it writes `self.screen[0]` into an empty buffer
(src/screen.rs line 206) — both panics are `none` in the model. -/
theorem c5_counterexample :
    ((Screen.new_fill 3 3 (pxl 'a')).inB 2 2 ∧
     ((Screen.new_fill 3 3 (pxl 'a')).fill_triangle 0 0 5 0 0 5
        (pxl 'b')).cell 2 2 = pxl 'a' ∧
     unclippedApply (Screen.new_fill 3 3 (pxl 'a')).cellF
        (fillTriangleTraceU 0 0 5 0 0 5 (pxl 'b')) (2, 2) = pxl 'b' ∧
     pxl 'a' ≠ pxl 'b') ∧
    ((Screen.new_fill 3 1 (pxl 'z')).inB 0 0 ∧
     ((Screen.new_fill 3 1 (pxl 'z')).print_fbg (-1) 0
        ['a', 'b', '\r', 'c', 'd'] Color.Reset Color.Reset).map
          (fun t => t.cell 0 0) =
        some (pxl_fbg 'c' Color.Reset Color.Reset) ∧
     unclippedApply (Screen.new_fill 3 1 (pxl 'z')).cellF
         (unclippedPrintTrace (-1) 0 ['a', 'b', '\r', 'c', 'd']
           Color.Reset Color.Reset) (0, 0) =
        pxl_fbg 'd' Color.Reset Color.Reset ∧
     pxl_fbg 'c' Color.Reset Color.Reset ≠
        pxl_fbg 'd' Color.Reset Color.Reset) ∧
    ((Screen.new 0 1).print_fbg (-1) 0 [] Color.Reset Color.Reset = none ∧
     (Screen.new 3 0).print_fbg 0 (-1) ['\n', 'a']
        Color.Reset Color.Reset = none) := by
  decide

/-! ## The engine's diff draw (`ConsoleEngine::draw`) -/

/-- The terminal commands queued by `ConsoleEngine::draw`:
cursor repositioning, a combined set-colors-and-print (the single `queue!`
emitting `SetForegroundColor`, `SetBackgroundColor`, `Print`), a bare
character print, and the end-of-row `"\r\n"` print. -/
inductive Cmd where
  | moveTo (x y : Nat)
  | setColorsPrint (fg bg : Color) (c : Char)
  | printChr (c : Char)
  | crlf
deriving DecidableEq, Repr

/-- A command that writes a cell's character (with or without a preceding
color change) — the "character-writing operations" of the diff-draw claim.
The cursor reset, repositioning and end-of-row `"\r\n"` are cursor control. -/
def isCellWrite : Cmd → Bool
  | Cmd.setColorsPrint _ _ _ => true
  | Cmd.printChr _ => true
  | _ => false

/-- The loop state of `ConsoleEngine::draw`: queued commands so far plus the
`first`, `current_colors`, `moving` and `skip_next` locals. -/
structure DrawSt where
  cmds : List Cmd
  first : Bool
  current_colors : Color × Color
  moving : Bool
  skip_next : Bool
deriving DecidableEq, Repr

/-- One cell of the `ConsoleEngine::draw` scan (src/lib.rs lines 587-631):
fetch the pixel, handle `skip_next` (wide characters, via the width oracle
`cw` standing for `unicode_width`), then either queue a write (with a
`MoveTo` first if `moving` was set, and colors only when they changed or on
the first write) or set `moving` when the cell matches the snapshot. -/
def drawCellStep (cw : Char → Option Nat) (lastEmpty : Bool)
    (cur last : Screen) (y x : Nat) (st : DrawSt) : DrawSt :=
  let pixel := cur.cellN x y
  if st.skip_next then { st with skip_next := false }
  else
    let st1 :=
      match cw pixel.chr with
      | some cwidth => if cwidth > 1 then { st with skip_next := true } else st
      | none => st
    if lastEmpty = true ∨ pixel ≠ last.cellN x y then
      let st2 :=
        if st1.moving then
          { st1 with cmds := st1.cmds ++ [Cmd.moveTo x y], moving := false }
        else st1
      if st2.current_colors ≠ pixel.get_colors ∨ st2.first = true then
        { st2 with current_colors := pixel.get_colors,
                   cmds := st2.cmds ++ [Cmd.setColorsPrint pixel.fg pixel.bg pixel.chr],
                   first := false }
      else { st2 with cmds := st2.cmds ++ [Cmd.printChr pixel.chr] }
    else { st1 with moving := true }

/-- One row of the `ConsoleEngine::draw` scan, with the `"\r\n"` queued
after every row except the last. -/
def drawRowStep (cw : Char → Option Nat) (lastEmpty : Bool)
    (cur last : Screen) (y : Nat) (st : DrawSt) : DrawSt :=
  let st1 := (List.range cur.width).foldl
    (fun acc x => drawCellStep cw lastEmpty cur last y x acc) st
  if (y : Int) < (cur.height : Int) - 1 then
    { st1 with cmds := st1.cmds ++ [Cmd.crlf] }
  else st1

/-- `ConsoleEngine::draw` as a function from (current screen, last-frame
snapshot) to (queued command sequence, new snapshot): reset the cursor,
refresh the snapshot's empty flag, scan all cells row-major, and store the
current screen as the next snapshot. -/
def ConsoleEngine.draw (cw : Char → Option Nat) (cur last : Screen) :
    List Cmd × Screen :=
  let lastEmpty := last.check_empty.1
  let st0 : DrawSt := ⟨[Cmd.moveTo 0 0], true, (Color.Reset, Color.Reset), false, false⟩
  let stf := (List.range cur.height).foldl
    (fun acc y => drawRowStep cw lastEmpty cur last y acc) st0
  (stf.cmds, cur)

theorem drawCellStep_cmds_self (cw : Char → Option Nat) (cur : Screen)
    (y x : Nat) (st : DrawSt) :
    (drawCellStep cw false cur cur y x st).cmds = st.cmds := by
  unfold drawCellStep
  by_cases hs : st.skip_next
  · rw [if_pos hs]
  · have hcond : ¬(false = true ∨ cur.cellN x y ≠ cur.cellN x y) := by simp
    simp only [if_neg hs, if_neg hcond]
    cases hcw : cw (cur.cellN x y).chr with
    | none => rfl
    | some cwidth => by_cases hw : cwidth > 1 <;> simp [hw]

theorem drawCells_cmds_self (cw : Char → Option Nat) (cur : Screen) (y : Nat)
    (xs : List Nat) (st : DrawSt) :
    ((xs.foldl (fun acc x => drawCellStep cw false cur cur y x acc) st)).cmds =
      st.cmds := by
  induction xs generalizing st with
  | nil => rfl
  | cons x t ih => rw [List.foldl_cons, ih, drawCellStep_cmds_self]

theorem drawRowStep_cmds_self (cw : Char → Option Nat) (cur : Screen)
    (y : Nat) (st : DrawSt) :
    (drawRowStep cw false cur cur y st).cmds =
      st.cmds ++ (if (y : Int) < (cur.height : Int) - 1 then [Cmd.crlf] else []) := by
  unfold drawRowStep
  by_cases hy : (y : Int) < (cur.height : Int) - 1
  · rw [if_pos hy, if_pos hy]
    simp [drawCells_cmds_self]
  · rw [if_neg hy, if_neg hy]
    simp [drawCells_cmds_self]

theorem drawRows_cmds_self (cw : Char → Option Nat) (cur : Screen)
    (ys : List Nat) (st : DrawSt) :
    ((ys.foldl (fun acc y => drawRowStep cw false cur cur y acc) st)).cmds =
      st.cmds ++
        (ys.map (fun (y : Nat) => if (y : Int) < (cur.height : Int) - 1
          then [Cmd.crlf] else [])).flatten := by
  induction ys generalizing st with
  | nil => simp
  | cons y t ih =>
      rw [List.foldl_cons, ih, drawRowStep_cmds_self]
      simp

theorem flatten_const_singleton {α : Type} (l : List Nat) (c : α) :
    (l.map (fun _ => [c])).flatten = List.replicate l.length c := by
  induction l with
  | nil => rfl
  | cons a t ih => simp [ih, List.replicate_succ]

theorem crlf_flatten (h : Nat) :
    ((List.range h).map (fun (y : Nat) => if (y : Int) < (h : Int) - 1
      then [Cmd.crlf] else [])).flatten = List.replicate (h - 1) Cmd.crlf := by
  cases h with
  | zero => rfl
  | succ n =>
      rw [List.range_succ]
      rw [List.map_append, List.flatten_append]
      have h1 : (List.range n).map (fun (y : Nat) => if (y : Int) < ((n + 1 : Nat) : Int) - 1
          then [Cmd.crlf] else []) = (List.range n).map (fun _ => [Cmd.crlf]) := by
        apply List.map_congr_left
        intro a ha
        rw [List.mem_range] at ha
        rw [if_pos (by push_cast; omega)]
      have h2 : (if ((n : Nat) : Int) < ((n + 1 : Nat) : Int) - 1
          then [Cmd.crlf] else ([] : List Cmd)) = [] := by
        rw [if_neg (by push_cast; omega)]
      simp only [List.map_cons, List.map_nil, h1, h2]
      rw [flatten_const_singleton, List.length_range]
      simp

theorem checkLoop_false_of_exists (l : List Pixel)
    (h : ∃ p ∈ l, p.chr ≠ nulChar) : checkLoop l = false := by
  cases hb : checkLoop l with
  | false => rfl
  | true =>
      obtain ⟨p, hp, hne⟩ := h
      exact absurd ((checkLoop_true_iff l).mp hb p hp) hne

/-- The property asserted by claim C2 (amended): when the current screen has
at least one non-NUL cell, the second of two consecutive `draw` calls with
no mutation in between queues exactly the initial cursor reset and the
per-row `"\r\n"` separators — zero per-cell character writes. -/
def C2Prop (cw : Char → Option Nat) (cur last0 : Screen) : Prop :=
  (ConsoleEngine.draw cw cur ((ConsoleEngine.draw cw cur last0).2)).1 =
    Cmd.moveTo 0 0 :: List.replicate (cur.height - 1) Cmd.crlf

/-- C2 (amended): diff-draw minimality for screens that are not entirely
NUL (see `C2Prop`).  The second call's whole queued command list is the
cursor reset followed by the row separators, so it contains no
`setColorsPrint` and no `printChr` command. -/
theorem c2_diff_draw_minimality (cw : Char → Option Nat) (cur last0 : Screen)
    (hne : ∃ p ∈ cur.screen, p.chr ≠ nulChar) : C2Prop cw cur last0 := by
  show (ConsoleEngine.draw cw cur cur).1 = _
  unfold ConsoleEngine.draw
  have hempty : cur.check_empty.1 = false :=
    checkLoop_false_of_exists cur.screen hne
  rw [hempty]
  dsimp only
  rw [drawRows_cmds_self, crlf_flatten]
  rfl

/-- Witness for C2: a concrete 2×2 blank screen. -/
theorem c2_diff_draw_minimality_witness :
    (∃ p ∈ (Screen.new 2 2).screen, p.chr ≠ nulChar) ∧
      C2Prop (fun _ => some 1) (Screen.new 2 2) (Screen.new_empty 2 2) :=
  ⟨by decide, c2_diff_draw_minimality (fun _ => some 1) (Screen.new 2 2)
    (Screen.new_empty 2 2) (by decide)⟩

/-- C2 counterexample: if every cell of the current screen holds the NUL
sentinel (reachable via `fill(pxl('\u{0}'))`), the refreshed snapshot reads
as "empty" on the second draw, which forces a full redraw: the second call
queues a per-cell character write, contradicting the claim as stated. -/
theorem c2_counterexample :
    ((ConsoleEngine.draw (fun _ => some 1) (Screen.new_fill 1 1 (pxl nulChar))
        ((ConsoleEngine.draw (fun _ => some 1)
          (Screen.new_fill 1 1 (pxl nulChar)) (Screen.new_empty 1 1)).2)).1).any
      isCellWrite = true := by
  decide

set_option maxRecDepth 40000 in
/-- C8 counterexample: on the legal zero-sized screen `Screen::new(0, 0)`,
`get_pxl(0, 0)` takes the error path and the message's "bounds" come from
the wrapping `u32` subtraction `0 - 1 = 4294967295` (a debug build panics on
the overflow instead), so the message does not contain the actual signed
bound `width - 1 = -1`: the claim's "descriptive error value containing
... the buffer bounds" fails for this screen. -/
theorem c8_counterexample :
    (Screen.new 0 0).get_pxl 0 0 =
        Except.error (getPxlErrMsg 0 0 0 0) ∧
      ¬ List.IsInfix (toString ((0 : Int) - 1)).data
          (getPxlErrMsg 0 0 0 0).data := by
  constructor
  · rfl
  · decide

end CE
